import Mathlib

set_option maxRecDepth 100000

/-
Verification of the fiber-signed URL signing middleware.

The Go source operates on byte strings. We embed Go strings as `List Nat`
(one entry per byte; every byte of interest is below 256) so that the
byte-wise operations of the source (splitting, percent-encoding,
lexicographic sorting, hashing) translate directly. Helper `str` turns an
ASCII Lean string literal into its byte list.

Sections below model, in order: byte-string utilities, the parts of the Go
standard library net/url that the source calls (QueryEscape/QueryUnescape,
ParseQuery, Values and Values.Encode, ParseRequestURI, URL.String), the
fasthttp query-argument parsing used by fiber contexts, the hash functions
(SHA-1, SHA-256, MD5) selected by the configuration, and then the
repository functions themselves: getHash, orderQueryParams, getSignature,
GetSignedURLFromHTTPRequest, validateRequest.
-/

namespace FiberSigned

/-- Go strings are byte strings: one list entry per byte. -/
abbrev Str : Type := List Nat

/-- Byte list of an ASCII Lean string literal. -/
def str (s : String) : Str := s.toList.map Char.toNat

/-- Go strings.Cut at the first occurrence of byte c: (before, after).
When c does not occur, the whole string is the first component and the
second is empty, mirroring Cut returning (s, "", false). -/
def cutByte (c : Nat) : Str → Str × Str
  | [] => ([], [])
  | b :: rest =>
    if b = c then ([], rest)
    else
      let p := cutByte c rest
      (b :: p.1, p.2)

/-- Go strings.Split on a one-byte separator. -/
def splitOnByte (c : Nat) : Str → List Str
  | [] => [[]]
  | b :: rest =>
    if b = c then [] :: splitOnByte c rest
    else
      match splitOnByte c rest with
      | [] => [[b]]
      | s :: ss => (b :: s) :: ss

/-- Go strings.Join with a one-byte separator. -/
def joinByte (c : Nat) : List Str → Str
  | [] => []
  | [s] => s
  | s :: rest => s ++ c :: joinByte c rest

/-- ASCII letter or digit, as Go shouldEscape classifies bytes. -/
def isAlphaNumByte (b : Nat) : Bool :=
  (65 ≤ b && b ≤ 90) || (97 ≤ b && b ≤ 122) || (48 ≤ b && b ≤ 57)

/-- The four unreserved marks - _ . ~ that Go never escapes. -/
def isUnreservedMark (b : Nat) : Bool :=
  b == 45 || b == 95 || b == 46 || b == 126

/-- ASCII digit. -/
def isDigitByte (b : Nat) : Bool := 48 ≤ b && b ≤ 57

/-- ASCII control byte, as Go stringContainsCTLByte tests. -/
def isCtlByte (b : Nat) : Bool := b < 32 || b == 127

/-- ASCII lowercasing of one byte, as Go strings.ToLower acts on ASCII. -/
def toLowerByte (b : Nat) : Nat := if 65 ≤ b && b ≤ 90 then b + 32 else b

/-- Uppercase hexadecimal digit byte, used by Go percent-encoding. -/
def hexUpperDigit (n : Nat) : Nat := if n < 10 then 48 + n else 55 + n

/-- Lowercase hexadecimal digit byte, used by fmt %x output. -/
def hexLowerDigit (n : Nat) : Nat := if n < 10 then 48 + n else 87 + n

/-- Value of a hexadecimal digit byte (either case), none otherwise. -/
def hexVal (b : Nat) : Option Nat :=
  if 48 ≤ b && b ≤ 57 then some (b - 48)
  else if 97 ≤ b && b ≤ 102 then some (b - 87)
  else if 65 ≤ b && b ≤ 70 then some (b - 55)
  else none

/-- Go url.QueryEscape on one byte: alphanumerics and - _ . ~ are kept,
space becomes +, every other byte becomes %XX with uppercase hex. -/
def escapeQueryByte (b : Nat) : Str :=
  if isAlphaNumByte b || isUnreservedMark b then [b]
  else if b == 32 then [43]
  else [37, hexUpperDigit (b / 16 % 16), hexUpperDigit (b % 16)]

/-- Go url.QueryEscape over a whole byte string. -/
def escapeQuery (s : Str) : Str := s.flatMap escapeQueryByte

/-- Go url.QueryUnescape: %XX decodes (both hex cases), + becomes space,
invalid or truncated escapes are an error (none). -/
def unescapeQuery : Str → Option Str
  | [] => some []
  | b :: rest =>
    if b = 37 then
      match rest with
      | a :: b2 :: rest2 =>
        match hexVal a, hexVal b2 with
        | some x, some y => (unescapeQuery rest2).map (fun t => (16 * x + y) :: t)
        | _, _ => none
      | _ => none
    else if b = 43 then (unescapeQuery rest).map (fun t => 32 :: t)
    else (unescapeQuery rest).map (fun t => b :: t)

/-- Bytes Go keeps unescaped in a URL path (mode encodePath):
alphanumerics, - _ . ~ and the specials kept in paths. -/
def isPathByteKept (b : Nat) : Bool :=
  isAlphaNumByte b || isUnreservedMark b ||
    ([36, 38, 43, 44, 47, 58, 59, 61, 64] : List Nat).contains b

/-- Go escape with mode encodePath on one byte. -/
def escapePathByte (b : Nat) : Str :=
  if isPathByteKept b then [b]
  else [37, hexUpperDigit (b / 16 % 16), hexUpperDigit (b % 16)]

/-- Go URL.EscapedPath for a URL whose RawPath is empty. -/
def escapePath (s : Str) : Str := s.flatMap escapePathByte

/-- Go unescape with mode encodePath: %XX decodes, + stays +, everything
else is kept; invalid escapes are an error. -/
def unescapePath : Str → Option Str
  | [] => some []
  | b :: rest =>
    if b = 37 then
      match rest with
      | a :: b2 :: rest2 =>
        match hexVal a, hexVal b2 with
        | some x, some y => (unescapePath rest2).map (fun t => (16 * x + y) :: t)
        | _, _ => none
      | _ => none
    else (unescapePath rest).map (fun t => b :: t)

/-- ASCII bytes Go keeps unescaped in a host (mode encodeHost). -/
def isHostByteKept (b : Nat) : Bool :=
  isAlphaNumByte b || isUnreservedMark b ||
    ([33, 36, 38, 39, 40, 41, 42, 43, 44, 59, 61, 58, 91, 93, 60, 62, 34] : List Nat).contains b

/-- Go escape with mode encodeHost on one byte. -/
def escapeHostByte (b : Nat) : Str :=
  if isHostByteKept b then [b]
  else [37, hexUpperDigit (b / 16 % 16), hexUpperDigit (b % 16)]

/-- Go escape of a host, as URL.String writes it. -/
def escapeHost (s : Str) : Str := s.flatMap escapeHostByte

/-- Byte-wise lexicographic comparison of byte strings, the order used by
Go sort.Strings. -/
def strLeB : Str → Str → Bool
  | [], _ => true
  | _ :: _, [] => false
  | a :: as, b :: bs => if a < b then true else if a = b then strLeB as bs else false

/-- The order Go sort.Strings sorts by, as a relation. -/
def strLe (a b : Str) : Prop := strLeB a b = true

instance : DecidableRel strLe := fun a b => inferInstanceAs (Decidable (strLeB a b = true))

/-- Go sort.Strings. -/
def sortStr (l : List Str) : List Str := List.insertionSort strLe l

/-- Go url.Values restricted to what the source observes: the query
pairs in order of appearance. The per-key value slices of the Go map are
recovered by valuesAll; map iteration order never matters in the source
because every consumer sorts the keys. -/
abbrev Values : Type := List (Str × Str)

/-- The value slice q[k] of Go url.Values: the values under key k in
order of appearance. -/
def valuesAll (q : Values) (k : Str) : List Str :=
  (q.filter (fun p => p.1 = k)).map Prod.snd

/-- Go Values.Get: first value under the key, empty when absent. -/
def valuesGet (q : Values) (k : Str) : Str := (valuesAll q k).headD []

/-- Go Values.Set: replace the whole slice under the key by one value. -/
def valuesSet (q : Values) (k v : Str) : Values :=
  (q.filter (fun p => ¬ p.1 = k)) ++ [(k, v)]

/-- Go Values.Add: append one value to the slice under the key. -/
def valuesAdd (q : Values) (k v : Str) : Values := q ++ [(k, v)]

/-- The distinct keys of the Values map. -/
def valuesKeys (q : Values) : List Str := (q.map Prod.fst).dedup

/-- Go Values.Encode: keys sorted, each pair written escaped(k)=escaped(v)
with values in slice order, pairs joined by ampersands. -/
def valuesEncode (q : Values) : Str :=
  joinByte 38
    ((sortStr (valuesKeys q)).flatMap
      (fun k => (valuesAll q k).map (fun v => escapeQuery k ++ 61 :: escapeQuery v)))

/-- One key=value segment of Go url.ParseQuery (Go 1.17+): segments
holding a semicolon are dropped with an error, empty segments are
skipped, the segment is cut at the first =, and both sides are
query-unescaped; a failing unescape drops the pair. -/
def parseQuerySeg (seg : Str) : Option (Str × Str) :=
  if seg.contains 59 then none
  else if seg.isEmpty then none
  else
    match unescapeQuery (cutByte 61 seg).1, unescapeQuery (cutByte 61 seg).2 with
    | some k, some v => some (k, v)
    | _, _ => none

/-- Go url.ParseQuery with the error discarded, as every call site of the
source discards it: the successfully parsed pairs in order. -/
def parseQuery (s : Str) : Values := (splitOnByte 38 s).filterMap parseQuerySeg

/-- Whether the two bytes after a percent form a valid escape. -/
def escValid (rest : Str) : Bool :=
  match rest with
  | a :: b2 :: _ => (hexVal a).isSome && (hexVal b2).isSome
  | _ => false

/-- The byte encoded by the two hex digits after a percent. -/
def escByteOf (rest : Str) : Nat :=
  match rest with
  | a :: b2 :: _ => (hexVal a).getD 0 * 16 + (hexVal b2).getD 0
  | _ => 0

/-- fasthttp query-argument decoding (decodeArgAppend): + becomes space,
percent with two valid hex digits decodes, a percent with fewer than two
bytes after it ends decoding with the remainder appended raw, and on an
invalid two-byte escape the percent byte is kept literally and scanning
resumes at the following byte. After a valid escape the two hex digits,
which always decode to themselves, are dropped from the decoded tail. -/
def fasthttpDecodeArg : Str → Str
  | [] => []
  | b :: rest =>
    if b = 37 then
      if escValid rest then escByteOf rest :: (fasthttpDecodeArg rest).drop 2
      else if rest.length < 2 then 37 :: rest
      else 37 :: fasthttpDecodeArg rest
    else if b = 43 then 32 :: fasthttpDecodeArg rest
    else b :: fasthttpDecodeArg rest

/-- fasthttp query-argument parsing as fiber Ctx.Query sees it: split on
ampersands, cut each segment at the first =, decode both sides. An empty
query string yields no arguments. -/
def fasthttpParseArgs (s : Str) : Values :=
  if s.isEmpty then []
  else
    (splitOnByte 38 s).map
      (fun seg =>
        let kv := cutByte 61 seg
        (fasthttpDecodeArg kv.1, fasthttpDecodeArg kv.2))

/-- The fields of Go url.URL that the source reads after parsing. -/
structure GoURL where
  scheme : Str
  host : Str
  path : Str
  rawQuery : Str
deriving DecidableEq, Repr

/-- Go url getScheme: scan for the colon ending a scheme of one letter
followed by letters, digits, +, - or dots. A colon first is an error
(none); any other non-scheme byte means no scheme, the whole input is the
remainder. seen accumulates the scanned prefix. -/
def getSchemeAux (seen : Str) : Str → Option (Str × Str)
  | [] => some ([], seen)
  | c :: cs =>
    if (65 ≤ c && c ≤ 90) || (97 ≤ c && c ≤ 122) then getSchemeAux (seen ++ [c]) cs
    else if isDigitByte c || c == 43 || c == 45 || c == 46 then
      if seen.isEmpty then some ([], c :: cs) else getSchemeAux (seen ++ [c]) cs
    else if c = 58 then
      if seen.isEmpty then none else some (seen, cs)
    else some ([], seen ++ c :: cs)

/-- Go url getScheme over a whole URL string. -/
def getScheme (s : Str) : Option (Str × Str) := getSchemeAux [] s

/-- Whether a byte may appear raw in a Go host: the bytes kept by host
escaping plus non-ASCII bytes, which Go parseHost accepts raw. Percent
escapes inside hosts (including bracket-zone escapes) are not modelled
(such hosts are treated as a parse error), nor is userinfo. -/
def isHostByteValid (b : Nat) : Bool := 128 ≤ b || isHostByteKept b

/-- Go validOptionalPort on an explicit port suffix: empty, or a colon
followed only by digits. -/
def optPortValid (s : Str) : Bool :=
  match s with
  | [] => true
  | 58 :: ds => ds.all isDigitByte
  | _ => false

/-- Go validOptionalPort applied to the suffix after the last colon. -/
def portValid (h : Str) : Bool :=
  if h.contains 58 then (h.reverse.takeWhile (fun b => ¬ b = 58)).all isDigitByte
  else true

/-- The validation Go parseHost performs on a userinfo-free host: a host
starting with an opening bracket must contain a closing bracket, with only
a valid optional port after the last one; any other host must carry a
valid optional port after its last colon; in both cases every byte must be
valid in a host, and an at sign would mean userinfo, which is not
modelled. -/
def hostOk (h : Str) : Bool :=
  (if h.take 1 = [91] then
    h.contains 93 && optPortValid (h.reverse.takeWhile (fun b => ¬ b = 93)).reverse
  else portValid h) &&
  h.all isHostByteValid && !(h.contains 64)

/-- Go url.ParseRequestURI restricted to the URL shapes this package
produces: control bytes are rejected, the scheme is split off and
lowercased, the query is cut at the first question mark, and then either
a //authority with a path, a rooted path, or (with a scheme) an opaque
remainder, which yields empty host and path. The path is
percent-decoded; a bad escape is an error. Errors are none. -/
def parseRequestURI (s : Str) : Option GoURL :=
  if s.isEmpty then none
  else if s.any isCtlByte then none
  else
    match getScheme s with
    | none => none
    | some (scheme0, afterScheme) =>
      let scheme := scheme0.map toLowerByte
      let qcut :=
        if afterScheme.contains 63 then cutByte 63 afterScheme else (afterScheme, [])
      let rest := qcut.1
      let rawQuery := qcut.2
      if rest.take 2 = [47, 47] then
        let afterSlashes := rest.drop 2
        let auth := afterSlashes.takeWhile (fun b => ¬ b = 47)
        let pathPart := afterSlashes.dropWhile (fun b => ¬ b = 47)
        if hostOk auth then
          match unescapePath pathPart with
          | some p => some ⟨scheme, auth, p, rawQuery⟩
          | none => none
        else none
      else if rest.take 1 = [47] then
        match unescapePath rest with
        | some p => some ⟨scheme, [], p, rawQuery⟩
        | none => none
      else if scheme.isEmpty then none
      else some ⟨scheme, [], [], rawQuery⟩

/-- Go URL.String for a URL without user, opaque part, fragment or
RawPath: scheme colon when a scheme is set, slash-slash-host when scheme
or host is set, the escaped path (with a slash inserted when a relative
path would follow a host), then question mark and raw query when the raw
query is nonempty. -/
def urlString (u : GoURL) : Str :=
  let ep := escapePath u.path
  (if u.scheme.isEmpty then [] else u.scheme ++ [58]) ++
    (if (¬ u.scheme.isEmpty || ¬ u.host.isEmpty) && (¬ u.host.isEmpty || ¬ u.path.isEmpty)
      then [47, 47] ++ escapeHost u.host else []) ++
    (if ¬ ep.isEmpty && ¬ ep.take 1 = [47] && ¬ u.host.isEmpty then [47] else []) ++
    ep ++
    (if u.rawQuery.isEmpty then [] else 63 :: u.rawQuery)

/-- Reduction to a 32-bit word. -/
def w32 (n : Nat) : Nat := n % 4294967296

/-- 32-bit bitwise complement, for words below 2 to the 32. -/
def not32 (n : Nat) : Nat := 4294967295 - n % 4294967296

/-- 32-bit left rotation. -/
def rotl32 (n k : Nat) : Nat :=
  (((n % 4294967296) <<< k) ||| ((n % 4294967296) >>> (32 - k))) % 4294967296

/-- 32-bit right rotation. -/
def rotr32 (n k : Nat) : Nat :=
  (((n % 4294967296) >>> k) ||| ((n % 4294967296) <<< (32 - k))) % 4294967296

/-- Big-endian 32-bit words of a byte list (groups of four). -/
def bytesToWords32BE : Str → List Nat
  | a :: b :: c :: d :: rest => (((a * 256 + b) * 256 + c) * 256 + d) :: bytesToWords32BE rest
  | _ => []

/-- Little-endian 32-bit words of a byte list (groups of four). -/
def bytesToWords32LE : Str → List Nat
  | a :: b :: c :: d :: rest => (a + 256 * (b + 256 * (c + 256 * d))) :: bytesToWords32LE rest
  | _ => []

/-- Big-endian bytes of a 32-bit word. -/
def word32ToBytesBE (n : Nat) : Str :=
  [n / 16777216 % 256, n / 65536 % 256, n / 256 % 256, n % 256]

/-- Little-endian bytes of a 32-bit word. -/
def word32ToBytesLE (n : Nat) : Str :=
  [n % 256, n / 256 % 256, n / 65536 % 256, n / 16777216 % 256]

/-- Big-endian bytes of a 64-bit length field. -/
def word64ToBytesBE (n : Nat) : Str :=
  [n / 72057594037927936 % 256, n / 281474976710656 % 256, n / 1099511627776 % 256,
    n / 4294967296 % 256, n / 16777216 % 256, n / 65536 % 256, n / 256 % 256, n % 256]

/-- Little-endian bytes of a 64-bit length field. -/
def word64ToBytesLE (n : Nat) : Str :=
  [n % 256, n / 256 % 256, n / 65536 % 256, n / 16777216 % 256, n / 4294967296 % 256,
    n / 1099511627776 % 256, n / 281474976710656 % 256, n / 72057594037927936 % 256]

/-- Merkle-Damgard padding with a big-endian bit length (SHA-1, SHA-256). -/
def padBE (msg : Str) : Str :=
  msg ++ 128 :: List.replicate ((119 - msg.length % 64) % 64) 0 ++
    word64ToBytesBE (8 * msg.length % 18446744073709551616)

/-- Merkle-Damgard padding with a little-endian bit length (MD5). -/
def padLE (msg : Str) : Str :=
  msg ++ 128 :: List.replicate ((119 - msg.length % 64) % 64) 0 ++
    word64ToBytesLE (8 * msg.length % 18446744073709551616)

/-- Split a word list into 16-word chunks (one 64-byte block each); a
trailing group shorter than 16 cannot arise after padding and is
dropped. -/
def chunksW16 : List Nat → List (List Nat)
  | w0 :: w1 :: w2 :: w3 :: w4 :: w5 :: w6 :: w7 :: w8 :: w9 :: w10 :: w11 :: w12 :: w13 ::
      w14 :: w15 :: rest =>
    [w0, w1, w2, w3, w4, w5, w6, w7, w8, w9, w10, w11, w12, w13, w14, w15] ::
      chunksW16 rest
  | _ => []

/-- SHA-1 chaining state. -/
structure SHA1State where
  a0 : Nat
  b0 : Nat
  c0 : Nat
  d0 : Nat
  e0 : Nat
deriving DecidableEq, Repr

/-- SHA-1 initial state. -/
def sha1Init : SHA1State :=
  ⟨0x67452301, 0xEFCDAB89, 0x98BADCFE, 0x10325476, 0xC3D2E1F0⟩

/-- SHA-1 message-schedule extension; the accumulator holds the words
produced so far, most recent first. -/
def sha1Extend (w : List Nat) : Nat → List Nat
  | 0 => w
  | n + 1 =>
    sha1Extend (rotl32 (w.getD 2 0 ^^^ w.getD 7 0 ^^^ w.getD 13 0 ^^^ w.getD 15 0) 1 :: w) n

/-- The 80 SHA-1 schedule words of one chunk, in order. -/
def sha1Schedule (ws : List Nat) : List Nat := (sha1Extend ws.reverse 64).reverse

/-- SHA-1 round boolean function. -/
def sha1F (i b c d : Nat) : Nat :=
  if i < 20 then (b &&& c) ||| (not32 b &&& d)
  else if i < 40 then b ^^^ c ^^^ d
  else if i < 60 then (b &&& c) ||| (b &&& d) ||| (c &&& d)
  else b ^^^ c ^^^ d

/-- SHA-1 round constant. -/
def sha1K (i : Nat) : Nat :=
  if i < 20 then 0x5A827999
  else if i < 40 then 0x6ED9EBA1
  else if i < 60 then 0x8F1BBCDC
  else 0xCA62C1D6

/-- SHA-1 compression rounds over the schedule words. -/
def sha1Rounds : Nat × Nat × Nat × Nat × Nat → Nat → List Nat → Nat × Nat × Nat × Nat × Nat
  | st, _, [] => st
  | (a, b, c, d, e), i, w :: rest =>
    sha1Rounds ((rotl32 a 5 + sha1F i b c d + e + sha1K i + w) % 4294967296, a,
      rotl32 b 30, c, d) (i + 1) rest

/-- SHA-1 processing of one 64-byte chunk. -/
def sha1Chunk (st : SHA1State) (ws : List Nat) : SHA1State :=
  match sha1Rounds (st.a0, st.b0, st.c0, st.d0, st.e0) 0 (sha1Schedule ws) with
  | (a, b, c, d, e) =>
    ⟨(st.a0 + a) % 4294967296, (st.b0 + b) % 4294967296, (st.c0 + c) % 4294967296,
      (st.d0 + d) % 4294967296, (st.e0 + e) % 4294967296⟩

/-- SHA-1 digest bytes of a byte string. -/
def sha1Bytes (msg : Str) : Str :=
  let f := (chunksW16 (bytesToWords32BE (padBE msg))).foldl sha1Chunk sha1Init
  word32ToBytesBE f.a0 ++ word32ToBytesBE f.b0 ++ word32ToBytesBE f.c0 ++
    word32ToBytesBE f.d0 ++ word32ToBytesBE f.e0

/-- SHA-256 round constants, in decimal. -/
def sha256K : List Nat :=
  [1116352408, 1899447441, 3049323471, 3921009573, 961987163, 1508970993, 2453635748,
    2870763221, 3624381080, 310598401, 607225278, 1426881987, 1925078388, 2162078206,
    2614888103, 3248222580, 3835390401, 4022224774, 264347078, 604807628, 770255983,
    1249150122, 1555081692, 1996064986, 2554220882, 2821834349, 2952996808, 3210313671,
    3336571891, 3584528711, 113926993, 338241895, 666307205, 773529912, 1294757372,
    1396182291, 1695183700, 1986661051, 2177026350, 2456956037, 2730485921, 2820302411,
    3259730800, 3345764771, 3516065817, 3600352804, 4094571909, 275423344, 430227734,
    506948616, 659060556, 883997877, 958139571, 1322822218, 1537002063, 1747873779,
    1955562222, 2024104815, 2227730452, 2361852424, 2428436474, 2756734187, 3204031479,
    3329325298]

/-- SHA-256 chaining state. -/
structure SHA256State where
  a0 : Nat
  b0 : Nat
  c0 : Nat
  d0 : Nat
  e0 : Nat
  f0 : Nat
  g0 : Nat
  h0 : Nat
deriving DecidableEq, Repr

/-- SHA-256 initial state, in decimal. -/
def sha256Init : SHA256State :=
  ⟨1779033703, 3144134277, 1013904242, 2773480762, 1359893119, 2600822924, 528734635,
    1541459225⟩

/-- SHA-256 message-schedule extension; accumulator most recent first. -/
def sha256Extend (w : List Nat) : Nat → List Nat
  | 0 => w
  | n + 1 =>
    sha256Extend
      ((w.getD 15 0 +
          (rotr32 (w.getD 14 0) 7 ^^^ rotr32 (w.getD 14 0) 18 ^^^ (w.getD 14 0 >>> 3)) +
          w.getD 6 0 +
          (rotr32 (w.getD 1 0) 17 ^^^ rotr32 (w.getD 1 0) 19 ^^^ (w.getD 1 0 >>> 10))) %
          4294967296 :: w) n

/-- The 64 SHA-256 schedule words of one chunk, in order. -/
def sha256Schedule (ws : List Nat) : List Nat := (sha256Extend ws.reverse 48).reverse

/-- SHA-256 compression rounds over paired constants and schedule words. -/
def sha256Rounds :
    Nat × Nat × Nat × Nat × Nat × Nat × Nat × Nat → List (Nat × Nat) →
      Nat × Nat × Nat × Nat × Nat × Nat × Nat × Nat
  | st, [] => st
  | (a, b, c, d, e, f, g, h), (k, w) :: rest =>
    let s1 := rotr32 e 6 ^^^ rotr32 e 11 ^^^ rotr32 e 25
    let ch := (e &&& f) ^^^ (not32 e &&& g)
    let t1 := (h + s1 + ch + k + w) % 4294967296
    let s0 := rotr32 a 2 ^^^ rotr32 a 13 ^^^ rotr32 a 22
    let mj := (a &&& b) ^^^ (a &&& c) ^^^ (b &&& c)
    let t2 := (s0 + mj) % 4294967296
    sha256Rounds ((t1 + t2) % 4294967296, a, b, c, (d + t1) % 4294967296, e, f, g) rest

/-- SHA-256 processing of one 64-byte chunk. -/
def sha256Chunk (st : SHA256State) (ws : List Nat) : SHA256State :=
  match sha256Rounds (st.a0, st.b0, st.c0, st.d0, st.e0, st.f0, st.g0, st.h0)
      (sha256K.zip (sha256Schedule ws)) with
  | (a, b, c, d, e, f, g, h) =>
    ⟨(st.a0 + a) % 4294967296, (st.b0 + b) % 4294967296, (st.c0 + c) % 4294967296,
      (st.d0 + d) % 4294967296, (st.e0 + e) % 4294967296, (st.f0 + f) % 4294967296,
      (st.g0 + g) % 4294967296, (st.h0 + h) % 4294967296⟩

/-- SHA-256 digest bytes of a byte string. -/
def sha256Bytes (msg : Str) : Str :=
  let f := (chunksW16 (bytesToWords32BE (padBE msg))).foldl sha256Chunk sha256Init
  word32ToBytesBE f.a0 ++ word32ToBytesBE f.b0 ++ word32ToBytesBE f.c0 ++
    word32ToBytesBE f.d0 ++ word32ToBytesBE f.e0 ++ word32ToBytesBE f.f0 ++
    word32ToBytesBE f.g0 ++ word32ToBytesBE f.h0

/-- MD5 round constants. -/
def md5K : List Nat :=
  [0xd76aa478, 0xe8c7b756, 0x242070db, 0xc1bdceee, 0xf57c0faf, 0x4787c62a, 0xa8304613,
    0xfd469501, 0x698098d8, 0x8b44f7af, 0xffff5bb1, 0x895cd7be, 0x6b901122, 0xfd987193,
    0xa679438e, 0x49b40821, 0xf61e2562, 0xc040b340, 0x265e5a51, 0xe9b6c7aa, 0xd62f105d,
    0x02441453, 0xd8a1e681, 0xe7d3fbc8, 0x21e1cde6, 0xc33707d6, 0xf4d50d87, 0x455a14ed,
    0xa9e3e905, 0xfcefa3f8, 0x676f02d9, 0x8d2a4c8a, 0xfffa3942, 0x8771f681, 0x6d9d6122,
    0xfde5380c, 0xa4beea44, 0x4bdecfa9, 0xf6bb4b60, 0xbebfbc70, 0x289b7ec6, 0xeaa127fa,
    0xd4ef3085, 0x04881d05, 0xd9d4d039, 0xe6db99e5, 0x1fa27cf8, 0xc4ac5665, 0xf4292244,
    0x432aff97, 0xab9423a7, 0xfc93a039, 0x655b59c3, 0x8f0ccc92, 0xffeff47d, 0x85845dd1,
    0x6fa87e4f, 0xfe2ce6e0, 0xa3014314, 0x4e0811a1, 0xf7537e82, 0xbd3af235, 0x2ad7d2bb,
    0xeb86d391]

/-- MD5 per-round left-rotation amounts. -/
def md5S : List Nat :=
  [7, 12, 17, 22, 7, 12, 17, 22, 7, 12, 17, 22, 7, 12, 17, 22, 5, 9, 14, 20, 5, 9, 14,
    20, 5, 9, 14, 20, 5, 9, 14, 20, 4, 11, 16, 23, 4, 11, 16, 23, 4, 11, 16, 23, 4, 11,
    16, 23, 6, 10, 15, 21, 6, 10, 15, 21, 6, 10, 15, 21, 6, 10, 15, 21]

/-- One MD5 round. -/
def md5Round (m : List Nat) (st : Nat × Nat × Nat × Nat) (i : Nat) : Nat × Nat × Nat × Nat :=
  match st with
  | (a, b, c, d) =>
    let fg :=
      if i < 16 then ((b &&& c) ||| (not32 b &&& d), i)
      else if i < 32 then ((d &&& b) ||| (not32 d &&& c), (5 * i + 1) % 16)
      else if i < 48 then (b ^^^ c ^^^ d, (3 * i + 5) % 16)
      else (c ^^^ (b ||| not32 d), 7 * i % 16)
    let t := (fg.1 + a + md5K.getD i 0 + m.getD fg.2 0) % 4294967296
    (d, (b + rotl32 t (md5S.getD i 0)) % 4294967296, b, c)

/-- MD5 rounds loop: run the given number of rounds starting at round i. -/
def md5Loop (m : List Nat) (st : Nat × Nat × Nat × Nat) (i : Nat) : Nat → Nat × Nat × Nat × Nat
  | 0 => st
  | n + 1 => md5Loop m (md5Round m st i) (i + 1) n

/-- MD5 chaining state. -/
structure MD5State where
  a0 : Nat
  b0 : Nat
  c0 : Nat
  d0 : Nat
deriving DecidableEq, Repr

/-- MD5 initial state. -/
def md5Init : MD5State := ⟨0x67452301, 0xefcdab89, 0x98badcfe, 0x10325476⟩

/-- MD5 processing of one 64-byte chunk. -/
def md5Chunk (st : MD5State) (ws : List Nat) : MD5State :=
  match md5Loop ws (st.a0, st.b0, st.c0, st.d0) 0 64 with
  | (a, b, c, d) =>
    ⟨(st.a0 + a) % 4294967296, (st.b0 + b) % 4294967296, (st.c0 + c) % 4294967296,
      (st.d0 + d) % 4294967296⟩

/-- MD5 digest bytes of a byte string. -/
def md5Bytes (msg : Str) : Str :=
  let f := (chunksW16 (bytesToWords32LE (padLE msg))).foldl md5Chunk md5Init
  word32ToBytesLE f.a0 ++ word32ToBytesLE f.b0 ++ word32ToBytesLE f.c0 ++
    word32ToBytesLE f.d0

/-- Lowercase hex encoding of digest bytes, as fmt %x prints them. -/
def hexLower (bytes : Str) : Str :=
  bytes.flatMap (fun b => [hexLowerDigit (b / 16 % 16), hexLowerDigit (b % 16)])

/-- Lowercase SHA-1 hex digest. -/
def sha1Hex (s : Str) : Str := hexLower (sha1Bytes s)

/-- Lowercase SHA-256 hex digest. -/
def sha256Hex (s : Str) : Str := hexLower (sha256Bytes s)

/-- Lowercase MD5 hex digest. -/
def md5Hex (s : Str) : Str := hexLower (md5Bytes s)

/-- Algorithm option value SHA-1 (config.go). -/
def AlgorithmSHA1 : Str := str "SHA-1"

/-- Algorithm option value SHA-256 (config.go). -/
def AlgorithmSHA256 : Str := str "SHA-256"

/-- Algorithm option value MD-5 (config.go). -/
def AlgorithmMD5 : Str := str "MD-5"

/-- The middleware configuration (config.go). GetPrivateKeyFunc is a
zero-argument function returning the secret; the embedding models it by
the value it returns at the call, privateKey. Next is framework wiring
outside the verified core. -/
structure Config where
  algorithm : Str
  privateKey : Str
  signatureQueryKey : Str
  privateKeyQueryKey : Str
  expiresQueryKey : Str
  bodyHashQueryKey : Str
deriving DecidableEq, Repr

/-- ConfigDefault (config.go), with the environment read of the default
GetPrivateKeyFunc modelled by the value it would return. -/
def ConfigDefault (privateKey : Str) : Config :=
  ⟨AlgorithmSHA1, privateKey, str "signature", str "privateKey", str "expires",
    str "bodyHash"⟩

/-- getHash of the source: pick the hash function by the configured
algorithm, defaulting to SHA-1 for any other value, and return the
lowercase hex digest. -/
def getHash (cfg : Config) (hashString : Str) : Str :=
  if cfg.algorithm = AlgorithmSHA1 then sha1Hex hashString
  else if cfg.algorithm = AlgorithmSHA256 then sha256Hex hashString
  else if cfg.algorithm = AlgorithmMD5 then md5Hex hashString
  else sha1Hex hashString

/-- orderQueryParams of the source: collect the keys except the signature
query key, sort them, sort each value slice, and join key=value pairs
with ampersands. -/
def orderQueryParams (cfg : Config) (q : Values) : Str :=
  joinByte 38
    ((sortStr ((valuesKeys q).filter (fun k => ¬ k = cfg.signatureQueryKey))).flatMap
      (fun k => (sortStr (valuesAll q k)).map (fun v => k ++ 61 :: v)))

/-- The query-extraction step of getSignature: when the original URL
contains a question mark, the piece between the first and second question
marks (strings.Split, index 1); otherwise the whole string. -/
def extractQueryInput (originalURL : Str) : Str :=
  if originalURL.contains 63 then (splitOnByte 63 originalURL).getD 1 []
  else originalURL

/-- The string getSignature hashes, built exactly as the source builds
hashString: parse baseURL and originalURL together, default an empty path
to a slash, take the query pairs of originalURL, overwrite the private
key pair, add the body hash pair for a nonempty body, and interpolate
method, scheme, host, path and the ordered parameters. -/
def canonicalMessage (cfg : Config) (method baseURL originalURL body : Str) : Option Str :=
  match parseRequestURI (baseURL ++ originalURL) with
  | none => none
  | some parsed =>
    let path := if parsed.path.length < 1 then parsed.path ++ [47] else parsed.path
    let q := parseQuery (extractQueryInput originalURL)
    let q1 := valuesSet q cfg.privateKeyQueryKey cfg.privateKey
    let q2 := if 0 < body.length then valuesSet q1 cfg.bodyHashQueryKey (getHash cfg body) else q1
    some (method ++ 38 :: parsed.scheme ++ str "://" ++ parsed.host ++ path ++
      63 :: orderQueryParams cfg q2)

instance exceptDecEq {ε α : Type} [DecidableEq ε] [DecidableEq α] : DecidableEq (Except ε α)
  | .ok x, .ok y =>
    if h : x = y then .isTrue (congrArg Except.ok h)
    else .isFalse (fun he => h (by cases he; rfl))
  | .ok _, .error _ => .isFalse (fun he => Except.noConfusion he)
  | .error _, .ok _ => .isFalse (fun he => Except.noConfusion he)
  | .error x, .error y =>
    if h : x = y then .isTrue (congrArg Except.error h)
    else .isFalse (fun he => h (by cases he; rfl))

/-- The error getSignature returns when url.ParseRequestURI fails. -/
inductive URLParseError where
  | malformedURL
deriving DecidableEq, Repr

/-- getSignature of the source. -/
def getSignature (cfg : Config) (method baseURL originalURL body : Str) :
    Except URLParseError Str :=
  match canonicalMessage cfg method baseURL originalURL body with
  | none => Except.error URLParseError.malformedURL
  | some m => Except.ok (getHash cfg m)

/-- The reserved-parameter error of GetSignedURLFromHTTPRequest, carrying
the reserved key named in the message. -/
inductive SignError where
  | reservedParameter (key : Str)
deriving DecidableEq, Repr

/-- The http.Request fields GetSignedURLFromHTTPRequest reads. host
models both r.Host and r.URL.Host, which coincide for a client request
built from its URL; urlPath is the decoded r.URL.Path with empty RawPath;
body holds the bytes ReadAll returns (an I/O failure of the body stream
is not representable in the embedding). -/
structure Request where
  method : Str
  urlScheme : Str
  host : Str
  urlPath : Str
  urlRawQuery : Str
  body : Str
deriving DecidableEq, Repr

/-- GetSignedURLFromHTTPRequest of the source. Go mutates the argument
request and returns only the URL string; the embedding returns the URL
string together with the final state of the request. Note the source adds
the signature under the literal key "signature" (not the configured
signature key) and discards the error of getSignature, leaving an empty
signature when the URL fails to parse. -/
def GetSignedURLFromHTTPRequest (cfg : Config) (r : Request) :
    Except SignError (Str × Request) :=
  let baseURL := r.urlScheme ++ str "://" ++ r.host
  let originalURL := r.urlPath ++ 63 :: r.urlRawQuery
  let q := parseQuery r.urlRawQuery
  if ¬ (valuesGet q cfg.signatureQueryKey).isEmpty then
    Except.error (SignError.reservedParameter cfg.signatureQueryKey)
  else if ¬ (valuesGet q cfg.privateKeyQueryKey).isEmpty then
    Except.error (SignError.reservedParameter cfg.privateKeyQueryKey)
  else if ¬ (valuesGet q cfg.bodyHashQueryKey).isEmpty then
    Except.error (SignError.reservedParameter cfg.bodyHashQueryKey)
  else
    let signature := ((getSignature cfg r.method baseURL originalURL r.body).toOption).getD []
    let newRawQuery := valuesEncode (valuesAdd q (str "signature") signature)
    Except.ok (urlString ⟨r.urlScheme, r.host, r.urlPath, newRawQuery⟩,
      { r with urlRawQuery := newRawQuery })

/-- An instant of time.Now(): Unix seconds and the nanosecond part. -/
structure Instant where
  sec : Int
  nsec : Nat
deriving DecidableEq, Repr

/-- time.Unix(i, 0).Before(now). -/
def unixBefore (i : Int) (now : Instant) : Bool :=
  decide (i < now.sec) || (decide (i = now.sec) && decide (0 < now.nsec))

/-- Go strconv.ParseInt with base 10 and bit size 64: optional sign, at
least one digit, digits only, and the value must fit a 64-bit signed
integer. -/
def parseInt64 (s : Str) : Option Int :=
  if s.isEmpty then none
  else
    let sd : Bool × Str :=
      match s with
      | 43 :: ds => (false, ds)
      | 45 :: ds => (true, ds)
      | ds => (false, ds)
    if sd.2.isEmpty then none
    else if sd.2.all isDigitByte then
      let n := sd.2.foldl (fun (acc : Nat) b => acc * 10 + (b - 48)) 0
      if sd.1 then if n ≤ 9223372036854775808 then some (-(n : Int)) else none
      else if n ≤ 9223372036854775807 then some (n : Int) else none
    else none

/-- The rejection reasons of validateRequest, in the order the source
checks them. -/
inductive ValidationError where
  | missingSignature
  | invalidExpiry
  | expired
  | signatureMismatch
deriving DecidableEq, Repr

/-- The fiber context fields validateRequest reads: c.Method(),
c.BaseURL() (scheme://host), c.OriginalURL() (the raw request URI, path
and query), c.Body(), and the current time of the expiry comparison. -/
structure VCtx where
  method : Str
  baseURL : Str
  originalURL : Str
  body : Str
  now : Instant
deriving DecidableEq, Repr

/-- The query string fasthttp parses for a request context: the part of
the request URI after the first question mark. -/
def ctxQueryString (c : VCtx) : Str := (cutByte 63 c.originalURL).2

/-- fiber c.Query: the first value under the key among the fasthttp
query arguments, empty when absent. -/
def ctxQuery (c : VCtx) (key : Str) : Str :=
  valuesGet (fasthttpParseArgs (ctxQueryString c)) key

/-- The recompute-and-compare step of validateRequest: recompute the
signature from the context (discarding a parse error, which leaves an
empty recomputed value) and compare it with the supplied signature
parameter; signatureMismatch when they differ, none when equal. -/
def compareStep (cfg : Config) (c : VCtx) : Option ValidationError :=
  if ¬ ((getSignature cfg c.method c.baseURL c.originalURL c.body).toOption).getD [] =
      ctxQuery c cfg.signatureQueryKey then
    some ValidationError.signatureMismatch
  else none

/-- validateRequest of the source: require a nonempty signature
parameter; if an expires parameter is present, require it to parse as a
base-10 integer and not to lie strictly before the current time; then
recompute the signature (discarding a parse error, which leaves an empty
recomputed value) and compare. none is the valid outcome (true, nil).
The Go local variables signature, expires and hashedSignature are
inlined, and the final recompute-and-compare step (the lines building
hashedSignature and comparing it with the supplied signature) is the
preceding named helper compareStep. -/
def validateRequest (cfg : Config) (c : VCtx) : Option ValidationError :=
  if (ctxQuery c cfg.signatureQueryKey).isEmpty then some ValidationError.missingSignature
  else
    match
      (if ¬ (ctxQuery c cfg.expiresQueryKey).isEmpty then
        match parseInt64 (ctxQuery c cfg.expiresQueryKey) with
        | none => some ValidationError.invalidExpiry
        | some i => if unixBefore i c.now then some ValidationError.expired else none
      else none : Option ValidationError) with
    | some e => some e
    | none => compareStep cfg c

/-- How a signed absolute URL reaches the verifier: a client request to
scheme://host/path?query gives the fiber context BaseURL scheme://host
and OriginalURL the path and query. -/
def splitAbsURL (u : Str) : Str × Str :=
  let p := cutByte 58 u
  let hostAndRest := p.2.drop 2
  let host := hostAndRest.takeWhile (fun b => ¬ b = 47)
  (p.1 ++ str "://" ++ host, hostAndRest.dropWhile (fun b => ¬ b = 47))

/-- The composition the round-trip property is about: sign a request,
present the returned URL string unmodified to the verifier with the same
method and body, under one configuration. ok none means the signed URL
verified as valid. -/
def signedRoundTrip (cfg : Config) (r : Request) (now : Instant) :
    Except SignError (Option ValidationError) :=
  match GetSignedURLFromHTTPRequest cfg r with
  | Except.error e => Except.error e
  | Except.ok (url, _) =>
    let sp := splitAbsURL url
    Except.ok (validateRequest cfg
      { method := r.method, baseURL := sp.1, originalURL := sp.2, body := r.body,
        now := now })

/-- A configuration with secret "secret" and all defaults, as the
repository tests configure the middleware. -/
def cfgSecret : Config := ConfigDefault (str "secret")

/-- A configuration overriding the signature query key, the documented
configuration surface of SignatureQueryKey. -/
def cfgSigOverride : Config := { cfgSecret with signatureQueryKey := str "sig" }

/-- A plain GET request to http://example.com/ with no query and no body. -/
def reqRoot : Request := ⟨str "GET", str "http", str "example.com", str "/", [], []⟩

/-- A GET request whose URL scheme is empty, so that the concatenated URL
string starts with a colon and fails to parse. -/
def reqNoScheme : Request := ⟨str "GET", [], str "example.com", str "/", [], []⟩

/-- The signature value GetSignedURLFromHTTPRequest computes for a
request: the getSignature result on the derived baseURL and original
URL, with a parse error discarded as the empty string. -/
def signerSignature (cfg : Config) (r : Request) : Str :=
  ((getSignature cfg r.method (r.urlScheme ++ str "://" ++ r.host)
    (r.urlPath ++ 63 :: r.urlRawQuery) r.body).toOption).getD []

/-- The raw query GetSignedURLFromHTTPRequest writes back into the
request: the re-encoding of the parsed query with the signature pair
appended under the literal key "signature". -/
def signerNewRawQuery (cfg : Config) (r : Request) : Str :=
  valuesEncode (valuesAdd (parseQuery r.urlRawQuery) (str "signature")
    (signerSignature cfg r))

/-- A GET request with query a=1 and body, for concrete evaluations. -/
def reqQuery : Request :=
  ⟨str "GET", str "http", str "example.com", str "/x", str "a=1", str "body"⟩

/-- The query pairs in the order Values.Encode writes them: keys sorted,
values in slice order. parseQuery recovers exactly this list from an
encoded query string. -/
def encodeOrderPairs (q : Values) : Values :=
  (sortStr (valuesKeys q)).flatMap (fun k => (valuesAll q k).map (fun v => (k, v)))

/-- Whether an expires parameter value passes the expiry check of
validateRequest: absent (empty), or a parseable timestamp not strictly
before the given instant. -/
def expiryPasses (ev : Str) (now : Instant) : Bool :=
  if ev.isEmpty then true
  else
    match parseInt64 ev with
    | some i => !unixBefore i now
    | none => false

/- ### Lemmas: splitting, cutting and joining byte strings -/

theorem cutByte_no_sep {c : Nat} {x : Str} (h : c ∉ x) : cutByte c x = (x, []) := by
  induction x with
  | nil => rfl
  | cons b rest ih =>
    simp only [List.mem_cons, not_or] at h
    simp [cutByte, Ne.symm h.1, ih h.2]

theorem cutByte_append_sep {c : Nat} {x : Str} (t : Str) (h : c ∉ x) :
    cutByte c (x ++ c :: t) = (x, t) := by
  induction x with
  | nil => simp [cutByte]
  | cons b rest ih =>
    simp only [List.mem_cons, not_or] at h
    simp [cutByte, Ne.symm h.1, ih h.2]

theorem splitOnByte_no_sep {c : Nat} {x : Str} (h : c ∉ x) : splitOnByte c x = [x] := by
  induction x with
  | nil => rfl
  | cons b rest ih =>
    simp only [List.mem_cons, not_or] at h
    simp [splitOnByte, Ne.symm h.1, ih h.2]

theorem splitOnByte_append_sep {c : Nat} {x : Str} (t : Str) (h : c ∉ x) :
    splitOnByte c (x ++ c :: t) = x :: splitOnByte c t := by
  induction x with
  | nil => simp [splitOnByte]
  | cons b rest ih =>
    simp only [List.mem_cons, not_or] at h
    rw [List.cons_append, splitOnByte]
    simp only [Ne.symm h.1, if_false]
    rw [ih h.2]

theorem splitOnByte_ne_nil {c : Nat} (s : Str) : splitOnByte c s ≠ [] := by
  cases s with
  | nil => simp [splitOnByte]
  | cons b rest =>
    rw [splitOnByte]
    split
    · simp
    · split <;> simp_all

theorem splitOnByte_joinByte {c : Nat} {l : List Str} (hne : l ≠ [])
    (h : ∀ s ∈ l, c ∉ s) : splitOnByte c (joinByte c l) = l := by
  induction l with
  | nil => exact absurd rfl hne
  | cons x rest ih =>
    cases rest with
    | nil => exact splitOnByte_no_sep (h x (by simp))
    | cons y t =>
      have hj : joinByte c (x :: y :: t) = x ++ c :: joinByte c (y :: t) := rfl
      rw [hj, splitOnByte_append_sep _ (h x (by simp))]
      rw [ih (by simp) (fun s hs => h s (List.mem_cons_of_mem _ hs))]

theorem mem_joinByte {c b : Nat} {l : List Str} (h : b ∈ joinByte c l) :
    b = c ∨ ∃ s ∈ l, b ∈ s := by
  induction l with
  | nil => simp [joinByte] at h
  | cons x rest ih =>
    cases rest with
    | nil => exact Or.inr ⟨x, by simp, h⟩
    | cons y t =>
      have hj : joinByte c (x :: y :: t) = x ++ c :: joinByte c (y :: t) := rfl
      rw [hj] at h
      rcases List.mem_append.mp h with hx | hct
      · exact Or.inr ⟨x, by simp, hx⟩
      · rcases List.mem_cons.mp hct with hb | hj
        · exact Or.inl hb
        · rcases ih hj with hb | ⟨s, hs, hbs⟩
          · exact Or.inl hb
          · exact Or.inr ⟨s, List.mem_cons_of_mem _ hs, hbs⟩

theorem mem_of_mem_splitOnByte {c : Nat} {s x : Str} (hx : x ∈ splitOnByte c s) :
    ∀ b ∈ x, b ∈ s := by
  induction s generalizing x with
  | nil => intro b hb; simp [splitOnByte] at hx; simp [hx] at hb
  | cons d rest ih =>
    intro b hb
    rw [splitOnByte] at hx
    by_cases hd : d = c
    · simp only [hd, if_true, List.mem_cons] at hx
      rcases hx with hx | hx
      · simp [hx] at hb
      · exact List.mem_cons_of_mem _ (ih hx b hb)
    · simp only [hd, if_false] at hx
      rcases hsp : splitOnByte c rest with _ | ⟨s0, ss⟩
      · exact absurd hsp (splitOnByte_ne_nil rest)
      · rw [hsp] at hx
        rcases List.mem_cons.mp hx with hx | hx
        · subst hx
          rcases List.mem_cons.mp hb with hb | hb
          · simp [hb]
          · exact List.mem_cons_of_mem _ (ih (by simp [hsp]) b hb)
        · exact List.mem_cons_of_mem _ (ih (by simp [hsp, hx]) b hb)

theorem mem_of_mem_cutByte_fst {c : Nat} {s : Str} :
    ∀ b ∈ (cutByte c s).1, b ∈ s := by
  induction s with
  | nil => simp [cutByte]
  | cons d rest ih =>
    intro b hb
    rw [cutByte] at hb
    by_cases hd : d = c
    · simp [hd] at hb
    · simp only [hd, if_false] at hb
      rcases List.mem_cons.mp hb with hb | hb
      · simp [hb]
      · exact List.mem_cons_of_mem _ (ih b hb)

theorem mem_of_mem_cutByte_snd {c : Nat} {s : Str} :
    ∀ b ∈ (cutByte c s).2, b ∈ s := by
  induction s with
  | nil => simp [cutByte]
  | cons d rest ih =>
    intro b hb
    rw [cutByte] at hb
    by_cases hd : d = c
    · simp only [hd, if_true] at hb
      exact List.mem_cons_of_mem _ hb
    · simp only [hd, if_false] at hb
      exact List.mem_cons_of_mem _ (ih b hb)

/- ### Lemmas: percent-encoding round trips -/

theorem hexVal_hexUpperDigit {m : Nat} (h : m < 16) : hexVal (hexUpperDigit m) = some m := by
  interval_cases m <;> decide

theorem isAlphaNumByte_hexUpperDigit {m : Nat} (h : m < 16) :
    isAlphaNumByte (hexUpperDigit m) = true := by
  interval_cases m <;> decide

theorem escapeQueryByte_plain_facts {b : Nat}
    (h : (isAlphaNumByte b || isUnreservedMark b) = true) : b ≠ 37 ∧ b ≠ 43 ∧ b ≠ 32 := by
  simp only [isAlphaNumByte, isUnreservedMark, Bool.or_eq_true, Bool.and_eq_true,
    decide_eq_true_eq, beq_iff_eq] at h
  omega

theorem hexVal_some_facts {a x : Nat} (h : hexVal a = some x) :
    x < 16 ∧ a ≠ 37 ∧ a ≠ 43 := by
  simp only [hexVal] at h
  split at h
  · rename_i h1
    simp only [Bool.and_eq_true, decide_eq_true_eq] at h1
    injection h with h
    omega
  · split at h
    · rename_i h1 h2
      simp only [Bool.and_eq_true, decide_eq_true_eq] at h2
      injection h with h
      omega
    · split at h
      · rename_i h1 h2 h3
        simp only [Bool.and_eq_true, decide_eq_true_eq] at h3
        injection h with h
        omega
      · exact absurd h (by simp)

theorem unescapeQuery_cons_plain {b : Nat} (rest : Str) (h37 : b ≠ 37) (h43 : b ≠ 43) :
    unescapeQuery (b :: rest) = (unescapeQuery rest).map (fun t => b :: t) := by
  rw [unescapeQuery.eq_def]
  simp [h37, h43]

theorem unescapeQuery_cons_plus (rest : Str) :
    unescapeQuery (43 :: rest) = (unescapeQuery rest).map (fun t => 32 :: t) := by
  rw [unescapeQuery.eq_def]
  norm_num

theorem unescapeQuery_percent {a b2 x y : Nat} (rest : Str) (hx : hexVal a = some x)
    (hy : hexVal b2 = some y) :
    unescapeQuery (37 :: a :: b2 :: rest) =
      (unescapeQuery rest).map (fun t => (16 * x + y) :: t) := by
  rw [unescapeQuery.eq_def]
  simp [hx, hy]

theorem unescapeQuery_escapeQuery {s : Str} (h : ∀ b ∈ s, b < 256) :
    unescapeQuery (escapeQuery s) = some s := by
  induction s with
  | nil => rfl
  | cons b t ih =>
    have hb : b < 256 := h b (by simp)
    have iht := ih (fun x hx => h x (List.mem_cons_of_mem _ hx))
    have hsplit : escapeQuery (b :: t) = escapeQueryByte b ++ escapeQuery t := by
      simp [escapeQuery]
    rw [hsplit, escapeQueryByte]
    by_cases h1 : (isAlphaNumByte b || isUnreservedMark b) = true
    · obtain ⟨n37, n43, _⟩ := escapeQueryByte_plain_facts h1
      simp only [h1, if_true, List.cons_append, List.nil_append]
      rw [unescapeQuery_cons_plain _ n37 n43, iht]
      rfl
    · simp only [h1, if_false, Bool.not_eq_true] at *
      by_cases h2 : b = 32
      · simp only [h1, Bool.false_eq_true, if_false, h2, beq_self_eq_true, if_true,
          List.cons_append, List.nil_append]
        rw [unescapeQuery_cons_plus, iht]
        rfl
      · have hbeq : (b == 32) = false := by simp [h2]
        simp only [h1, Bool.false_eq_true, if_false, hbeq, List.cons_append,
          List.nil_append]
        rw [unescapeQuery_percent (escapeQuery t)
          (hexVal_hexUpperDigit (Nat.mod_lt _ (by norm_num)))
          (hexVal_hexUpperDigit (Nat.mod_lt _ (by norm_num))), iht]
        have : 16 * (b / 16 % 16) + b % 16 = b := by omega
        rw [this]
        rfl

theorem fasthttpDecodeArg_cons_plain {b : Nat} (rest : Str) (h37 : b ≠ 37) (h43 : b ≠ 43) :
    fasthttpDecodeArg (b :: rest) = b :: fasthttpDecodeArg rest := by
  rw [fasthttpDecodeArg]
  simp [h37, h43]

theorem fasthttpDecodeArg_cons_plus (rest : Str) :
    fasthttpDecodeArg (43 :: rest) = 32 :: fasthttpDecodeArg rest := by
  rw [fasthttpDecodeArg]
  norm_num

theorem fasthttpDecodeArg_percent {a b2 x y : Nat} (rest : Str) (hx : hexVal a = some x)
    (hy : hexVal b2 = some y) :
    fasthttpDecodeArg (37 :: a :: b2 :: rest) = (16 * x + y) :: fasthttpDecodeArg rest := by
  obtain ⟨hx16, ha37, ha43⟩ := hexVal_some_facts hx
  obtain ⟨hy16, hb37, hb43⟩ := hexVal_some_facts hy
  rw [fasthttpDecodeArg]
  have hv : escValid (a :: b2 :: rest) = true := by simp [escValid, hx, hy]
  have hbv : escByteOf (a :: b2 :: rest) = 16 * x + y := by
    simp [escByteOf, hx, hy]
    omega
  simp only [if_pos rfl, hv, if_true, hbv]
  rw [fasthttpDecodeArg_cons_plain _ ha37 ha43, fasthttpDecodeArg_cons_plain _ hb37 hb43]
  simp

theorem fasthttpDecodeArg_escapeQuery {s : Str} (h : ∀ b ∈ s, b < 256) :
    fasthttpDecodeArg (escapeQuery s) = s := by
  induction s with
  | nil => rfl
  | cons b t ih =>
    have hb : b < 256 := h b (by simp)
    have iht := ih (fun x hx => h x (List.mem_cons_of_mem _ hx))
    have hsplit : escapeQuery (b :: t) = escapeQueryByte b ++ escapeQuery t := by
      simp [escapeQuery]
    rw [hsplit, escapeQueryByte]
    by_cases h1 : (isAlphaNumByte b || isUnreservedMark b) = true
    · obtain ⟨n37, n43, _⟩ := escapeQueryByte_plain_facts h1
      simp only [h1, if_true, List.cons_append, List.nil_append]
      rw [fasthttpDecodeArg_cons_plain _ n37 n43, iht]
    · simp only [h1, Bool.not_eq_true] at *
      by_cases h2 : b = 32
      · simp only [h1, Bool.false_eq_true, if_false, h2, beq_self_eq_true, if_true,
          List.cons_append, List.nil_append]
        rw [fasthttpDecodeArg_cons_plus, iht]
      · have hbeq : (b == 32) = false := by simp [h2]
        simp only [h1, Bool.false_eq_true, if_false, hbeq, List.cons_append,
          List.nil_append]
        rw [fasthttpDecodeArg_percent (escapeQuery t)
          (hexVal_hexUpperDigit (Nat.mod_lt _ (by norm_num)))
          (hexVal_hexUpperDigit (Nat.mod_lt _ (by norm_num))), iht]
        have : 16 * (b / 16 % 16) + b % 16 = b := by omega
        rw [this]

theorem mem_escapeQuery_facts {s : Str} {c : Nat} (h : c ∈ escapeQuery s) :
    isAlphaNumByte c = true ∨ c = 45 ∨ c = 95 ∨ c = 46 ∨ c = 126 ∨ c = 43 ∨ c = 37 := by
  rw [escapeQuery, List.mem_flatMap] at h
  obtain ⟨b, _, hc⟩ := h
  rw [escapeQueryByte] at hc
  split at hc
  · rename_i h1
    rcases List.mem_singleton.mp hc with rfl
    simp only [isAlphaNumByte, isUnreservedMark, Bool.or_eq_true, Bool.and_eq_true,
      decide_eq_true_eq, beq_iff_eq] at h1 ⊢
    tauto
  · split at hc
    · rcases List.mem_singleton.mp hc with rfl
      tauto
    · rcases List.mem_cons.mp hc with rfl | hc2
      · tauto
      · rcases List.mem_cons.mp hc2 with rfl | hc3
        · exact Or.inl (isAlphaNumByte_hexUpperDigit (Nat.mod_lt _ (by norm_num)))
        · rcases List.mem_singleton.mp hc3 with rfl
          exact Or.inl (isAlphaNumByte_hexUpperDigit (Nat.mod_lt _ (by norm_num)))

theorem mem_escapeQuery_ne {s : Str} {c : Nat} (h : c ∈ escapeQuery s) :
    c ≠ 38 ∧ c ≠ 61 ∧ c ≠ 59 ∧ c ≠ 63 ∧ isCtlByte c = false ∧ c < 256 := by
  rcases mem_escapeQuery_facts h with h1 | h1 | h1 | h1 | h1 | h1 | h1 <;>
    simp only [isAlphaNumByte, isCtlByte, Bool.or_eq_true, Bool.and_eq_true,
      decide_eq_true_eq, beq_iff_eq, Bool.or_eq_false_iff, decide_eq_false_iff_not,
      beq_eq_false_iff_ne] at * <;> omega

/- ### Lemmas: the sort order of Go sort.Strings -/

theorem strLeB_total : ∀ (a b : Str), strLeB a b = true ∨ strLeB b a = true
  | [], _ => Or.inl rfl
  | _ :: _, [] => Or.inr rfl
  | a :: as, b :: bs => by
    by_cases h1 : a < b
    · exact Or.inl (by simp [strLeB, h1])
    · by_cases h2 : a = b
      · subst h2
        rcases strLeB_total as bs with h | h
        · exact Or.inl (by simp [strLeB, h])
        · exact Or.inr (by simp [strLeB, h])
      · have hb : b < a := by omega
        have hba : ¬ b = a := by omega
        exact Or.inr (by simp [strLeB, hb])

theorem strLeB_trans : ∀ {a b c : Str}, strLeB a b = true → strLeB b c = true →
    strLeB a c = true
  | [], _, _ => fun _ _ => rfl
  | _ :: _, [], _ => fun h _ => by simp [strLeB] at h
  | _ :: _, _ :: _, [] => fun _ h => by simp [strLeB] at h
  | a :: as, b :: bs, c :: cs => fun h1 h2 => by
    simp only [strLeB] at h1 h2 ⊢
    by_cases hab : a < b
    · by_cases hbc : b < c
      · simp [show a < c by omega]
      · by_cases hbc2 : b = c
        · subst hbc2
          simp [hab]
        · simp [hbc, hbc2] at h2
    · by_cases hab2 : a = b
      · subst hab2
        simp only [lt_irrefl, if_false, if_pos rfl] at h1
        by_cases hbc : a < c
        · simp [hbc]
        · by_cases hbc2 : a = c
          · subst hbc2
            simp only [lt_irrefl, if_false, if_pos rfl] at h2 ⊢
            exact strLeB_trans h1 h2
          · simp [hbc, hbc2] at h2
      · simp [hab, hab2] at h1

theorem strLeB_antisymm : ∀ (a b : Str), strLeB a b = true → strLeB b a = true → a = b
  | [], [], _, _ => rfl
  | [], _ :: _, _, h2 => by simp [strLeB] at h2
  | _ :: _, [], h1, _ => by simp [strLeB] at h1
  | a :: as, b :: bs, h1, h2 => by
    simp only [strLeB] at h1 h2
    by_cases hab : a < b
    · have : ¬ b < a := by omega
      have : ¬ b = a := by omega
      simp_all
    · by_cases hab2 : a = b
      · subst hab2
        simp only [lt_irrefl, if_false, if_pos rfl] at h1 h2
        rw [strLeB_antisymm as bs h1 h2]
      · simp [hab, hab2] at h1

instance : IsTotal Str strLe := ⟨fun a b => strLeB_total a b⟩

instance : IsTrans Str strLe := ⟨fun _ _ _ => strLeB_trans⟩

instance : IsAntisymm Str strLe := ⟨fun a b => strLeB_antisymm a b⟩

theorem sortStr_perm (l : List Str) : List.Perm (sortStr l) l := List.perm_insertionSort _ l

theorem sortStr_sorted (l : List Str) : List.Sorted strLe (sortStr l) :=
  List.sorted_insertionSort _ l

theorem sortStr_eq_of_perm {l₁ l₂ : List Str} (h : List.Perm l₁ l₂) : sortStr l₁ = sortStr l₂ :=
  List.eq_of_perm_of_sorted ((sortStr_perm l₁).trans (h.trans (sortStr_perm l₂).symm))
    (sortStr_sorted l₁) (sortStr_sorted l₂)

/- ### Lemmas: path and host escaping -/

theorem unescapePath_no_percent {p : Str} (h : ∀ b ∈ p, b ≠ 37) :
    unescapePath p = some p := by
  induction p with
  | nil => rfl
  | cons b t ih =>
    rw [unescapePath.eq_def]
    have hb : b ≠ 37 := h b (by simp)
    simp only [hb, if_false]
    rw [ih (fun x hx => h x (List.mem_cons_of_mem _ hx))]
    rfl

theorem escapePath_of_kept {p : Str} (h : ∀ b ∈ p, isPathByteKept b = true) :
    escapePath p = p := by
  induction p with
  | nil => rfl
  | cons b t ih =>
    have hsplit : escapePath (b :: t) = escapePathByte b ++ escapePath t := by
      simp [escapePath]
    rw [hsplit, escapePathByte]
    simp only [h b (by simp), if_true]
    rw [ih (fun x hx => h x (List.mem_cons_of_mem _ hx))]
    rfl

theorem escapeHost_of_kept {p : Str} (h : ∀ b ∈ p, isHostByteKept b = true) :
    escapeHost p = p := by
  induction p with
  | nil => rfl
  | cons b t ih =>
    have hsplit : escapeHost (b :: t) = escapeHostByte b ++ escapeHost t := by
      simp [escapeHost]
    rw [hsplit, escapeHostByte]
    simp only [h b (by simp), if_true]
    rw [ih (fun x hx => h x (List.mem_cons_of_mem _ hx))]
    rfl

theorem isPathByteKept_facts {b : Nat} (h : isPathByteKept b = true) :
    b ≠ 37 ∧ b ≠ 63 ∧ isCtlByte b = false ∧ b < 256 := by
  simp [isPathByteKept, isAlphaNumByte, isUnreservedMark] at h
  simp only [isCtlByte, Bool.or_eq_false_iff, decide_eq_false_iff_not, beq_eq_false_iff_ne]
  omega

theorem isHostByteKept_facts {b : Nat} (h : isHostByteKept b = true) :
    b ≠ 37 ∧ b ≠ 63 ∧ b ≠ 47 ∧ b ≠ 64 ∧ isCtlByte b = false ∧ b < 256 := by
  simp [isHostByteKept, isAlphaNumByte, isUnreservedMark] at h
  simp only [isCtlByte, Bool.or_eq_false_iff, decide_eq_false_iff_not, beq_eq_false_iff_ne]
  omega

/- ### Lemmas: generic list helpers -/

theorem flatMap_congr_mem {α β : Type} {l : List α} {f g : α → List β}
    (h : ∀ a ∈ l, f a = g a) : l.flatMap f = l.flatMap g := by
  induction l with
  | nil => rfl
  | cons a t ih =>
    simp only [List.flatMap_cons, h a (by simp),
      ih (fun x hx => h x (List.mem_cons_of_mem _ hx))]

theorem filterMap_some_of_mem {α : Type} {l : List α} {f : α → Option α}
    (h : ∀ a ∈ l, f a = some a) : l.filterMap f = l := by
  induction l with
  | nil => rfl
  | cons a t ih =>
    simp only [List.filterMap_cons, h a (by simp),
      ih (fun x hx => h x (List.mem_cons_of_mem _ hx))]

theorem map_id_of_mem {α : Type} {l : List α} {f : α → α} (h : ∀ a ∈ l, f a = a) :
    l.map f = l := by
  induction l with
  | nil => rfl
  | cons a t ih =>
    simp only [List.map_cons, h a (by simp),
      ih (fun x hx => h x (List.mem_cons_of_mem _ hx))]

/- ### Lemmas: Values operations -/

theorem valuesAll_append (q1 q2 : Values) (k : Str) :
    valuesAll (q1 ++ q2) k = valuesAll q1 k ++ valuesAll q2 k := by
  simp [valuesAll, List.filter_append]

theorem valuesAll_singleton_self (k v : Str) : valuesAll [(k, v)] k = [v] := by
  simp [valuesAll]

theorem valuesAll_singleton_ne {k k' : Str} (v : Str) (h : k' ≠ k) :
    valuesAll [(k', v)] k = [] := by
  simp [valuesAll, h]

theorem valuesAll_eq_nil_of_not_mem {q : Values} {k : Str}
    (h : k ∉ q.map Prod.fst) : valuesAll q k = [] := by
  simp only [valuesAll, List.map_eq_nil_iff, List.filter_eq_nil_iff, decide_eq_true_eq]
  intro p hp hk
  exact h (hk ▸ List.mem_map_of_mem Prod.fst hp)

theorem valuesAll_cons_self {p : Str × Str} {k : Str} (t : Values) (h : p.1 = k) :
    valuesAll (p :: t) k = p.2 :: valuesAll t k := by
  simp [valuesAll, h]

theorem valuesAll_cons_ne {p : Str × Str} {k : Str} (t : Values) (h : ¬ p.1 = k) :
    valuesAll (p :: t) k = valuesAll t k := by
  simp [valuesAll, h]

theorem valuesAll_map_pair_self (k : Str) (l : List Str) :
    valuesAll (l.map (fun v => (k, v))) k = l := by
  induction l with
  | nil => rfl
  | cons v t ih =>
    rw [List.map_cons, valuesAll_cons_self _ rfl, ih]

theorem valuesAll_map_pair_ne {k k' : Str} (l : List Str) (h : ¬ k' = k) :
    valuesAll (l.map (fun v => (k', v))) k = [] := by
  induction l with
  | nil => rfl
  | cons v t ih =>
    rw [List.map_cons, valuesAll_cons_ne _ h, ih]

theorem map_pair_valuesAll (q : Values) (k : Str) :
    (valuesAll q k).map (fun v => (k, v)) = q.filter (fun p => p.1 = k) := by
  induction q with
  | nil => rfl
  | cons p t ih =>
    by_cases hp : p.1 = k
    · rw [valuesAll_cons_self t hp, List.map_cons,
        List.filter_cons_of_pos (by simp [hp]), ih]
      rw [show ((k : Str), p.2) = p from by rw [← hp]]
    · rw [valuesAll_cons_ne t hp, List.filter_cons_of_neg (by simp [hp]), ih]

/- ### Lemmas: the encode-order pair list -/

theorem filter_key_of_ne {q : Values} {k k' : Str} (h : ¬ k' = k) :
    (q.filter (fun p => ¬ p.1 = k)).filter (fun p => p.1 = k') =
      q.filter (fun p => p.1 = k') := by
  induction q with
  | nil => rfl
  | cons p t ih =>
    by_cases hp : p.1 = k'
    · have hpk : ¬ p.1 = k := by rw [hp]; exact h
      rw [List.filter_cons_of_pos (by simp [hpk]), List.filter_cons_of_pos (by simp [hp]),
        List.filter_cons_of_pos (by simp [hp]), ih]
    · by_cases hpk : p.1 = k
      · rw [List.filter_cons_of_neg (by simp [hpk]), List.filter_cons_of_neg (by simp [hp]),
          ih]
      · rw [List.filter_cons_of_pos (by simp [hpk]), List.filter_cons_of_neg (by simp [hp]),
          List.filter_cons_of_neg (by simp [hp]), ih]

theorem flatMap_filter_perm (ks : List Str) (q : Values) (hnd : ks.Nodup)
    (hcov : ∀ p ∈ q, p.1 ∈ ks) :
    List.Perm (ks.flatMap (fun k => q.filter (fun p => p.1 = k))) q := by
  induction ks generalizing q with
  | nil =>
    have hq : q = [] := by
      cases q with
      | nil => rfl
      | cons p t => exact absurd (hcov p (by simp)) (List.not_mem_nil _)
    simp [hq]
  | cons k ks ih =>
    have hknotin : k ∉ ks := (List.nodup_cons.mp hnd).1
    have hndks : ks.Nodup := (List.nodup_cons.mp hnd).2
    rw [List.flatMap_cons]
    have hcongr : ks.flatMap (fun k' => q.filter (fun p => p.1 = k')) =
        ks.flatMap (fun k' => (q.filter (fun p => ¬ p.1 = k)).filter (fun p => p.1 = k')) := by
      apply flatMap_congr_mem
      intro k' hk'
      refine (filter_key_of_ne (fun he => hknotin ?_)).symm
      rw [he] at hk'
      exact hk' 
    rw [hcongr]
    have hcov' : ∀ p ∈ q.filter (fun p => ¬ p.1 = k), p.1 ∈ ks := by
      intro p hp
      have hmem := (List.mem_filter.mp hp).1
      have hne := (List.mem_filter.mp hp).2
      simp only [decide_eq_true_eq] at hne
      rcases List.mem_cons.mp (hcov p hmem) with h | h
      · exact absurd h hne
      · exact h
    have hstep := (ih (q.filter (fun p => ¬ p.1 = k)) hndks hcov').append_left
      (q.filter (fun p => p.1 = k))
    refine hstep.trans ?_
    have hdec : (fun p : Str × Str => decide (¬ p.1 = k)) =
        (fun p : Str × Str => !decide (p.1 = k)) := by
      funext p
      exact decide_not
    rw [hdec]
    exact List.filter_append_perm _ q

theorem encodeOrderPairs_perm (q : Values) : List.Perm (encodeOrderPairs q) q := by
  unfold encodeOrderPairs
  have hfn : (fun k => (valuesAll q k).map (fun v => (k, v))) =
      (fun k => q.filter (fun p => p.1 = k)) := funext (fun k => map_pair_valuesAll q k)
  rw [hfn]
  apply flatMap_filter_perm
  · exact (sortStr_perm _).symm.nodup (List.nodup_dedup _)
  · intro p hp
    have hmem : p.1 ∈ valuesKeys q := by
      simp only [valuesKeys]
      rw [List.mem_dedup]
      exact List.mem_map_of_mem _ hp
    exact ((sortStr_perm _).mem_iff).mpr hmem

theorem mem_encodeOrderPairs {q : Values} {p : Str × Str} (h : p ∈ encodeOrderPairs q) :
    p ∈ q := (encodeOrderPairs_perm q).mem_iff.mp h

theorem valuesAll_flatMap_not_mem {ks : List Str} {q : Values} {k : Str} (h : k ∉ ks) :
    valuesAll (ks.flatMap (fun k' => (valuesAll q k').map (fun v => (k', v)))) k = [] := by
  induction ks with
  | nil => rfl
  | cons k' t ih =>
    rw [List.flatMap_cons, valuesAll_append]
    have hne : ¬ k' = k := fun he => h (he ▸ List.mem_cons_self _ _)
    rw [valuesAll_map_pair_ne _ hne, ih (fun hm => h (List.mem_cons_of_mem _ hm))]
    rfl

theorem valuesAll_encodeOrderPairs (q : Values) (k : Str) :
    valuesAll (encodeOrderPairs q) k = valuesAll q k := by
  unfold encodeOrderPairs
  by_cases hk : k ∈ sortStr (valuesKeys q)
  · obtain ⟨s, t, hst⟩ := List.append_of_mem hk
    have hnd : (sortStr (valuesKeys q)).Nodup :=
      (sortStr_perm _).symm.nodup (List.nodup_dedup _)
    rw [hst] at hnd
    rw [List.nodup_append] at hnd
    have hks : k ∉ s := fun hm => hnd.2.2 hm (List.mem_cons_self _ _)
    have hkt : k ∉ t := (List.nodup_cons.mp hnd.2.1).1
    rw [hst, List.flatMap_append, List.flatMap_cons, valuesAll_append, valuesAll_append]
    rw [valuesAll_flatMap_not_mem hks, valuesAll_flatMap_not_mem hkt,
      valuesAll_map_pair_self]
    simp
  · have hnk : k ∉ valuesKeys q := fun hm => hk ((sortStr_perm _).mem_iff.mpr hm)
    have hnil : valuesAll q k = [] := by
      apply valuesAll_eq_nil_of_not_mem
      intro hm
      apply hnk
      simp only [valuesKeys]
      rw [List.mem_dedup]
      exact hm
    rw [valuesAll_flatMap_not_mem hk, hnil]

theorem valuesGet_encodeOrderPairs (q : Values) (k : Str) :
    valuesGet (encodeOrderPairs q) k = valuesGet q k := by
  simp [valuesGet, valuesAll_encodeOrderPairs]

/- ### Lemmas: parsing back an encoded query -/

theorem valuesEncode_eq_map (q : Values) :
    valuesEncode q =
      joinByte 38 ((encodeOrderPairs q).map
        (fun p => escapeQuery p.1 ++ 61 :: escapeQuery p.2)) := by
  simp only [valuesEncode, encodeOrderPairs, List.map_flatMap, List.map_map]
  rfl

theorem encSeg_no_amp {k v : Str} : (38 : Nat) ∉ escapeQuery k ++ 61 :: escapeQuery v := by
  intro hm
  rcases List.mem_append.mp hm with hm | hm
  · exact (mem_escapeQuery_ne hm).1 rfl
  · rcases List.mem_cons.mp hm with h61 | hm
    · exact absurd h61 (by norm_num)
    · exact (mem_escapeQuery_ne hm).1 rfl

theorem encSeg_ne_nil {k v : Str} : escapeQuery k ++ 61 :: escapeQuery v ≠ [] := by
  simp

theorem parseQuerySeg_encoded {k v : Str} (hk : ∀ b ∈ k, b < 256) (hv : ∀ b ∈ v, b < 256) :
    parseQuerySeg (escapeQuery k ++ 61 :: escapeQuery v) = some (k, v) := by
  have h59m : (59 : Nat) ∉ escapeQuery k ++ 61 :: escapeQuery v := by
    intro hm
    rcases List.mem_append.mp hm with hm | hm
    · exact (mem_escapeQuery_ne hm).2.2.1 rfl
    · rcases List.mem_cons.mp hm with h61 | hm
      · exact absurd h61 (by norm_num)
      · exact (mem_escapeQuery_ne hm).2.2.1 rfl
  have h59 : (escapeQuery k ++ 61 :: escapeQuery v).contains 59 = false := by
    simpa using h59m
  have h61k : (61 : Nat) ∉ escapeQuery k := fun hm => (mem_escapeQuery_ne hm).2.1 rfl
  rw [parseQuerySeg, h59]
  simp only [Bool.false_eq_true, if_false, List.isEmpty_eq_true, encSeg_ne_nil]
  rw [cutByte_append_sep _ h61k]
  simp [unescapeQuery_escapeQuery hk, unescapeQuery_escapeQuery hv]

theorem valuesEncode_ne_nil {q : Values} (hq : q ≠ []) : valuesEncode q ≠ [] := by
  rw [valuesEncode_eq_map]
  have hne : encodeOrderPairs q ≠ [] := by
    intro he
    have hperm : List.Perm ([] : Values) q := by
      rw [← he]
      exact encodeOrderPairs_perm q
    exact hq hperm.nil_eq.symm
  rcases hp : encodeOrderPairs q with _ | ⟨p0, ps⟩
  · exact absurd hp hne
  · rcases ps with _ | ⟨p1, ps'⟩
    · simp [joinByte]
    · simp [joinByte]

theorem parseQuery_valuesEncode (q : Values)
    (hb : ∀ p ∈ q, (∀ b ∈ p.1, b < 256) ∧ (∀ b ∈ p.2, b < 256)) :
    parseQuery (valuesEncode q) = encodeOrderPairs q := by
  rcases hq : q with _ | ⟨p0, ps⟩
  · decide
  · rw [← hq]
    have hqne : q ≠ [] := by rw [hq]; simp
    have hne : encodeOrderPairs q ≠ [] := by
      intro he
      have hperm : List.Perm ([] : Values) q := by
        rw [← he]
        exact encodeOrderPairs_perm q
      exact hqne hperm.nil_eq.symm
    rw [valuesEncode_eq_map, parseQuery]
    rw [splitOnByte_joinByte (by simpa using hne) ?hsegs]
    case hsegs =>
      intro s hs
      obtain ⟨p, _, rfl⟩ := List.mem_map.mp hs
      exact encSeg_no_amp
    rw [List.filterMap_map]
    apply filterMap_some_of_mem
    intro p hp
    have hpq := mem_encodeOrderPairs hp
    have := parseQuerySeg_encoded (hb p hpq).1 (hb p hpq).2
    simpa using this

theorem fasthttpParseArgs_valuesEncode (q : Values)
    (hb : ∀ p ∈ q, (∀ b ∈ p.1, b < 256) ∧ (∀ b ∈ p.2, b < 256)) :
    fasthttpParseArgs (valuesEncode q) = encodeOrderPairs q := by
  rcases hq : q with _ | ⟨p0, ps⟩
  · decide
  · rw [← hq]
    have hqne : q ≠ [] := by rw [hq]; simp
    have hne : encodeOrderPairs q ≠ [] := by
      intro he
      have hperm : List.Perm ([] : Values) q := by
        rw [← he]
        exact encodeOrderPairs_perm q
      exact hqne hperm.nil_eq.symm
    rw [fasthttpParseArgs, if_neg (by simp [valuesEncode_ne_nil hqne])]
    rw [valuesEncode_eq_map]
    rw [splitOnByte_joinByte (by simpa using hne) ?hsegs]
    case hsegs =>
      intro s hs
      obtain ⟨p, _, rfl⟩ := List.mem_map.mp hs
      exact encSeg_no_amp
    rw [List.map_map]
    apply map_id_of_mem
    intro p hp
    have hpq := mem_encodeOrderPairs hp
    have h61k : (61 : Nat) ∉ escapeQuery p.1 := fun hm => (mem_escapeQuery_ne hm).2.1 rfl
    simp only [Function.comp]
    rw [cutByte_append_sep _ h61k]
    simp [fasthttpDecodeArg_escapeQuery (hb p hpq).1,
      fasthttpDecodeArg_escapeQuery (hb p hpq).2]

/- ### Lemmas: byte bounds through parsing -/

theorem unescapeQuery_bytes_lt {s : Str} :
    ∀ (t : Str), (∀ b ∈ s, b < 256) → unescapeQuery s = some t → ∀ b ∈ t, b < 256 := by
  induction s using unescapeQuery.induct with
  | case1 =>
    intro t _ h b hb
    injection h with h
    rw [← h] at hb
    exact absurd hb (List.not_mem_nil b)
  | case2 a b2 rest2 x y hy hx ih =>
    intro t hs h b hbt
    rw [unescapeQuery_percent _ hx hy] at h
    rcases ht2 : unescapeQuery rest2 with _ | t2
    · rw [ht2] at h
      exact absurd h (by simp)
    · rw [ht2] at h
      simp only [Option.map_some'] at h
      injection h with h
      rw [← h] at hbt
      rcases List.mem_cons.mp hbt with hb | hb
      · have := (hexVal_some_facts hx).1
        have := (hexVal_some_facts hy).1
        omega
      · exact ih t2 (fun c hc => hs c (by simp [hc])) ht2 b hb
  | case3 a b2 rest2 hfail =>
    intro t hs h
    rcases hx : hexVal a with _ | x
    · rw [unescapeQuery.eq_def] at h
      simp only [hx] at h
      exact absurd h (by simp)
    · rcases hy : hexVal b2 with _ | y
      · rw [unescapeQuery.eq_def] at h
        simp only [hx, hy] at h
        exact absurd h (by simp)
      · exact (hfail x y hx hy).elim
  | case4 rest hshape =>
    intro t hs h
    rcases rest with _ | ⟨c1, r1⟩
    · rw [show unescapeQuery [37] = none from rfl] at h
      exact absurd h (by simp)
    · rcases r1 with _ | ⟨c2, r2⟩
      · rw [show unescapeQuery [37, c1] = none from rfl] at h
        exact absurd h (by simp)
      · exact (hshape c1 c2 r2 rfl).elim
  | case5 rest h43ne ih =>
    intro t hs h c hct
    rw [unescapeQuery_cons_plus] at h
    rcases ht2 : unescapeQuery rest with _ | t2
    · rw [ht2] at h
      exact absurd h (by simp)
    · rw [ht2] at h
      simp only [Option.map_some'] at h
      injection h with h
      rw [← h] at hct
      rcases List.mem_cons.mp hct with hb | hb
      · omega
      · exact ih t2 (fun d hd => hs d (by simp [hd])) ht2 c hb
  | case6 b rest h37 h43 ih =>
    intro t hs h c hct
    rw [unescapeQuery_cons_plain _ h37 h43] at h
    rcases ht2 : unescapeQuery rest with _ | t2
    · rw [ht2] at h
      exact absurd h (by simp)
    · rw [ht2] at h
      simp only [Option.map_some'] at h
      injection h with h
      rw [← h] at hct
      rcases List.mem_cons.mp hct with hb | hb
      · rw [hb]
        exact hs b (by simp)
      · exact ih t2 (fun d hd => hs d (by simp [hd])) ht2 c hb

theorem parseQuery_bytes {s : Str} (hs : ∀ b ∈ s, b < 256) :
    ∀ p ∈ parseQuery s, (∀ b ∈ p.1, b < 256) ∧ (∀ b ∈ p.2, b < 256) := by
  intro p hp
  rw [parseQuery] at hp
  obtain ⟨seg, hseg, hps⟩ := List.mem_filterMap.mp hp
  have hsegb : ∀ b ∈ seg, b < 256 := fun b hb =>
    hs b (mem_of_mem_splitOnByte hseg b hb)
  rw [parseQuerySeg] at hps
  split at hps
  · exact absurd hps (by simp)
  · split at hps
    · exact absurd hps (by simp)
    · rcases hk : unescapeQuery (cutByte 61 seg).1 with _ | k
      · rw [hk] at hps
        exact absurd hps (by simp)
      · rcases hv : unescapeQuery (cutByte 61 seg).2 with _ | v
        · rw [hk, hv] at hps
          exact absurd hps (by simp)
        · rw [hk, hv] at hps
          injection hps with hps
          rw [← hps]
          constructor
          · exact unescapeQuery_bytes_lt _
              (fun b hb => hsegb b (mem_of_mem_cutByte_fst b hb)) hk
          · exact unescapeQuery_bytes_lt _
              (fun b hb => hsegb b (mem_of_mem_cutByte_snd b hb)) hv

/- ### Lemmas: orderQueryParams under permutation and the signature pair -/

theorem valuesAll_perm {q1 q2 : Values} (h : List.Perm q1 q2) (k : Str) :
    List.Perm (valuesAll q1 k) (valuesAll q2 k) := (h.filter _).map _

theorem valuesKeys_perm {q1 q2 : Values} (h : List.Perm q1 q2) :
    List.Perm (valuesKeys q1) (valuesKeys q2) := (h.map _).dedup

theorem valuesSet_perm {q1 q2 : Values} (h : List.Perm q1 q2) (k v : Str) :
    List.Perm (valuesSet q1 k v) (valuesSet q2 k v) :=
  (h.filter _).append (List.Perm.refl _)

theorem orderQueryParams_perm (cfg : Config) {q1 q2 : Values} (h : List.Perm q1 q2) :
    orderQueryParams cfg q1 = orderQueryParams cfg q2 := by
  unfold orderQueryParams
  rw [sortStr_eq_of_perm ((valuesKeys_perm h).filter _)]
  congr 1
  apply flatMap_congr_mem
  intro k _
  rw [sortStr_eq_of_perm (valuesAll_perm h k)]

theorem orderQueryParams_append_sigKey (cfg : Config) (q : Values) (v : Str) :
    orderQueryParams cfg (q ++ [(cfg.signatureQueryKey, v)]) = orderQueryParams cfg q := by
  unfold orderQueryParams
  have hnd1 : ((valuesKeys (q ++ [(cfg.signatureQueryKey, v)])).filter
      (fun k => ¬ k = cfg.signatureQueryKey)).Nodup :=
    (List.nodup_dedup _).filter _
  have hnd2 : ((valuesKeys q).filter (fun k => ¬ k = cfg.signatureQueryKey)).Nodup :=
    (List.nodup_dedup _).filter _
  have hkeys : sortStr ((valuesKeys (q ++ [(cfg.signatureQueryKey, v)])).filter
        (fun k => ¬ k = cfg.signatureQueryKey)) =
      sortStr ((valuesKeys q).filter (fun k => ¬ k = cfg.signatureQueryKey)) := by
    apply sortStr_eq_of_perm
    apply (List.perm_ext_iff_of_nodup hnd1 hnd2).mpr
    intro k
    simp only [List.mem_filter, valuesKeys, List.mem_dedup, List.map_append,
      List.mem_append, decide_eq_true_eq]
    constructor
    · rintro ⟨hk | hk, hne⟩
      · exact ⟨hk, hne⟩
      · simp at hk
        exact absurd hk hne
    · rintro ⟨hk, hne⟩
      exact ⟨Or.inl hk, hne⟩
  rw [hkeys]
  congr 1
  apply flatMap_congr_mem
  intro k hk
  have hkne : ¬ k = cfg.signatureQueryKey := by
    have := (sortStr_perm _).mem_iff.mp hk
    simp only [List.mem_filter, decide_eq_true_eq] at this
    exact this.2
  rw [valuesAll_append, valuesAll_singleton_ne _ (fun he => hkne he.symm),
    List.append_nil]

/- ### Lemmas: parseRequestURI on well-formed absolute URLs -/

theorem getSchemeAux_letters {sch : Str} (rest : Str)
    (h : ∀ b ∈ sch, 97 ≤ b ∧ b ≤ 122) :
    ∀ (seen : Str), seen ++ sch ≠ [] →
      getSchemeAux seen (sch ++ 58 :: rest) = some (seen ++ sch, rest) := by
  induction sch with
  | nil =>
    intro seen hne
    rw [List.append_nil] at hne
    rw [List.nil_append, getSchemeAux.eq_def]
    have hemp : seen.isEmpty = false := by
      simpa using hne
    simp [isDigitByte, hemp]
  | cons c cs ih =>
    intro seen hne
    have hc := h c (by simp)
    have halpha : ((65 ≤ c && c ≤ 90) || (97 ≤ c && c ≤ 122)) = true := by
      simp only [Bool.or_eq_true, Bool.and_eq_true, decide_eq_true_eq]
      omega
    rw [List.cons_append, getSchemeAux.eq_def]
    simp only [halpha, if_true]
    have := ih (fun b hb => h b (by simp [hb])) (seen ++ [c]) (by simp)
    rw [this]
    simp

theorem getScheme_wellformed {scheme : Str} (rest : Str) (hne : scheme ≠ [])
    (h : ∀ b ∈ scheme, 97 ≤ b ∧ b ≤ 122) :
    getScheme (scheme ++ 58 :: rest) = some (scheme, rest) := by
  have := getSchemeAux_letters rest h [] (by simpa using hne)
  simpa [getScheme] using this

theorem map_toLowerByte_of_lower {s : Str} (h : ∀ b ∈ s, 97 ≤ b ∧ b ≤ 122) :
    s.map toLowerByte = s := by
  apply map_id_of_mem
  intro b hb
  have := h b hb
  have hcond : (65 ≤ b && b ≤ 90) = false := by
    simp only [Bool.and_eq_false_iff, decide_eq_false_iff_not]
    omega
  simp [toLowerByte, hcond]

theorem takeWhile_append_cons_stop {p : Nat → Bool} {x : Str} {c : Nat} (t : Str)
    (hx : ∀ b ∈ x, p b = true) (hc : p c = false) :
    (x ++ c :: t).takeWhile p = x ∧ (x ++ c :: t).dropWhile p = c :: t := by
  induction x with
  | nil => simp [List.takeWhile_cons, List.dropWhile_cons, hc]
  | cons b bs ih =>
    have hb : p b = true := hx b (by simp)
    have := ih (fun d hd => hx d (by simp [hd]))
    simp [List.takeWhile_cons, List.dropWhile_cons, hb, this]

theorem hostOk_of_kept {h : Str} (hnb : h.take 1 ≠ [91])
    (hk : ∀ b ∈ h, isHostByteKept b = true)
    (hp : portValid h = true) : hostOk h = true := by
  unfold hostOk
  rw [if_neg hnb]
  have h1 : h.all isHostByteValid = true := by
    rw [List.all_eq_true]
    intro b hb
    simp [isHostByteValid, hk b hb]
  have h64 : (64 : Nat) ∉ h := fun hm => (isHostByteKept_facts (hk 64 hm)).2.2.2.1 rfl
  simp [h1, hp, h64]

theorem isCtlByte_false_of_bounds {b : Nat} (h1 : 32 ≤ b) (h2 : b ≠ 127) :
    isCtlByte b = false := by
  simp only [isCtlByte, Bool.or_eq_false_iff, decide_eq_false_iff_not,
    beq_eq_false_iff_ne]
  omega

theorem parseRequestURI_wellformed (scheme host path q : Str)
    (hsne : scheme ≠ []) (hs : ∀ b ∈ scheme, 97 ≤ b ∧ b ≤ 122)
    (hhk : ∀ b ∈ host, isHostByteKept b = true) (hhp : portValid host = true)
    (hnb : host.take 1 ≠ [91])
    (hpk : ∀ b ∈ path, isPathByteKept b = true) (hph : path.take 1 = [47])
    (hq : ∀ b ∈ q, isCtlByte b = false ∧ b ≠ 63) :
    parseRequestURI (scheme ++ str "://" ++ host ++ path ++ 63 :: q) =
      some ⟨scheme, host, path, q⟩ := by
  obtain ⟨pt, rfl⟩ : ∃ pt, path = 47 :: pt := by
    cases path with
    | nil => simp at hph
    | cons p0 pt =>
      rw [List.take_succ_cons, List.take_zero] at hph
      injection hph with h1 _
      exact ⟨pt, by rw [h1]⟩
  have hs3 : str "://" = [58, 47, 47] := rfl
  have hfull : scheme ++ str "://" ++ host ++ (47 :: pt) ++ 63 :: q =
      scheme ++ 58 :: (47 :: 47 :: (host ++ (47 :: pt) ++ 63 :: q)) := by
    rw [hs3]
    simp [List.append_assoc]
  rw [hfull, parseRequestURI]
  have hne : (scheme ++ 58 :: (47 :: 47 :: (host ++ (47 :: pt) ++ 63 :: q))).isEmpty
      = false := by
    cases scheme with
    | nil => simp
    | cons a t => simp
  rw [hne]
  have hctl : (scheme ++ 58 :: (47 :: 47 :: (host ++ (47 :: pt) ++ 63 :: q))).any isCtlByte
      = false := by
    rw [List.any_eq_false]
    intro b hb
    rw [Bool.not_eq_true]
    rcases List.mem_append.mp hb with hb | hb
    · have := hs b hb
      exact isCtlByte_false_of_bounds (by omega) (by omega)
    · rcases List.mem_cons.mp hb with rfl | hb
      · decide
      · rcases List.mem_cons.mp hb with rfl | hb
        · decide
        · rcases List.mem_cons.mp hb with rfl | hb
          · decide
          · rcases List.mem_append.mp hb with hb | hb
            · rcases List.mem_append.mp hb with hb | hb
              · exact (isHostByteKept_facts (hhk b hb)).2.2.2.2.1
              · exact (isPathByteKept_facts (hpk b hb)).2.2.1
            · rcases List.mem_cons.mp hb with rfl | hb
              · decide
              · exact (hq b hb).1
  rw [hctl]
  simp only [Bool.false_eq_true, if_false]
  rw [getScheme_wellformed _ hsne hs]
  simp only
  rw [map_toLowerByte_of_lower hs]
  have hc63 : (47 :: 47 :: (host ++ (47 :: pt) ++ 63 :: q)).contains 63 = true := by
    simp
  rw [if_pos hc63]
  have hno63 : (63 : Nat) ∉ (47 : Nat) :: 47 :: (host ++ (47 :: pt)) := by
    intro hm
    rcases List.mem_cons.mp hm with h47 | hm
    · exact absurd h47 (by norm_num)
    · rcases List.mem_cons.mp hm with h47 | hm
      · exact absurd h47 (by norm_num)
      · rcases List.mem_append.mp hm with hm | hm
        · exact (isHostByteKept_facts (hhk 63 hm)).2.1 rfl
        · exact (isPathByteKept_facts (hpk 63 hm)).2.1 rfl
  have hcut : cutByte 63 (47 :: 47 :: (host ++ (47 :: pt) ++ 63 :: q)) =
      (47 :: 47 :: (host ++ (47 :: pt)), q) := by
    have := @cutByte_append_sep 63 (47 :: 47 :: (host ++ (47 :: pt))) q hno63
    simpa [List.append_assoc] using this
  rw [hcut]
  simp only [List.take_succ_cons, List.take_zero, List.drop_succ_cons, List.drop_zero,
    eq_self_iff_true, if_true, if_pos rfl]
  have h47host : ∀ b ∈ host, (fun b => decide (¬ b = 47)) b = true := by
    intro b hb
    simp [(isHostByteKept_facts (hhk b hb)).2.2.1]
  have htw := @takeWhile_append_cons_stop (fun b => decide (¬ b = 47)) host 47 pt
    h47host (by simp)
  rw [htw.1, htw.2]
  rw [hostOk_of_kept hnb hhk hhp]
  simp only [if_true]
  have hup : unescapePath (47 :: pt) = some (47 :: pt) := by
    apply unescapePath_no_percent
    intro b hb
    exact (isPathByteKept_facts (hpk b hb)).1
  rw [hup]

/- ### Lemmas: digest lengths and hex output -/

theorem hexLower_length (s : Str) : (hexLower s).length = 2 * s.length := by
  induction s with
  | nil => rfl
  | cons b t ih =>
    simp only [hexLower, List.flatMap_cons] at ih ⊢
    simp [ih]
    omega

theorem sha1Bytes_length (msg : Str) : (sha1Bytes msg).length = 20 := by
  simp [sha1Bytes, word32ToBytesBE]

theorem sha256Bytes_length (msg : Str) : (sha256Bytes msg).length = 32 := by
  simp [sha256Bytes, word32ToBytesBE]

theorem md5Bytes_length (msg : Str) : (md5Bytes msg).length = 16 := by
  simp [md5Bytes, word32ToBytesLE]

theorem sha1Hex_length (s : Str) : (sha1Hex s).length = 40 := by
  rw [sha1Hex, hexLower_length, sha1Bytes_length]

theorem sha256Hex_length (s : Str) : (sha256Hex s).length = 64 := by
  rw [sha256Hex, hexLower_length, sha256Bytes_length]

theorem md5Hex_length (s : Str) : (md5Hex s).length = 32 := by
  rw [md5Hex, hexLower_length, md5Bytes_length]

theorem hexLowerDigit_facts {m : Nat} (h : m < 16) :
    isDigitByte (hexLowerDigit m) = true ∨ 97 ≤ hexLowerDigit m ∧ hexLowerDigit m ≤ 102 := by
  by_cases hm : m < 10
  · left
    simp only [hexLowerDigit, if_pos hm, isDigitByte, Bool.and_eq_true, decide_eq_true_eq]
    omega
  · right
    simp only [hexLowerDigit, if_neg hm]
    omega

theorem mem_hexLower_facts {s : Str} {b : Nat} (h : b ∈ hexLower s) :
    isDigitByte b = true ∨ 97 ≤ b ∧ b ≤ 102 := by
  rw [hexLower, List.mem_flatMap] at h
  obtain ⟨c, _, hb⟩ := h
  rcases List.mem_cons.mp hb with rfl | hb
  · exact hexLowerDigit_facts (Nat.mod_lt _ (by norm_num))
  · rcases List.mem_singleton.mp hb with rfl
    exact hexLowerDigit_facts (Nat.mod_lt _ (by norm_num))

theorem getHash_default_eq {cfg : Config} (h : cfg.algorithm = AlgorithmSHA1) (s : Str) :
    getHash cfg s = sha1Hex s := by
  rw [getHash, if_pos h]

theorem getHash_length_pos (cfg : Config) (s : Str) : 0 < (getHash cfg s).length := by
  rw [getHash]
  split
  · rw [sha1Hex_length]; norm_num
  · split
    · rw [sha256Hex_length]; norm_num
    · split
      · rw [md5Hex_length]; norm_num
      · rw [sha1Hex_length]; norm_num

theorem getHash_ne_nil (cfg : Config) (s : Str) : getHash cfg s ≠ [] := by
  intro h
  have := getHash_length_pos cfg s
  rw [h] at this
  simp at this

/- ### Lemmas: signature values and their bytes -/

theorem getSignature_ok_shape {cfg : Config} {m b o body s : Str}
    (h : getSignature cfg m b o body = Except.ok s) :
    ∃ msg, canonicalMessage cfg m b o body = some msg ∧ s = getHash cfg msg := by
  rw [getSignature] at h
  rcases hcm : canonicalMessage cfg m b o body with _ | msg
  · rw [hcm] at h
    exact Except.noConfusion h
  · rw [hcm] at h
    injection h with h
    exact ⟨msg, rfl, h.symm⟩

theorem getHash_bytes_lt (cfg : Config) (s : Str) : ∀ b ∈ getHash cfg s, b < 256 := by
  intro b hb
  have : isDigitByte b = true ∨ 97 ≤ b ∧ b ≤ 102 := by
    rw [getHash] at hb
    split at hb
    · exact mem_hexLower_facts hb
    · split at hb
      · exact mem_hexLower_facts hb
      · split at hb
        · exact mem_hexLower_facts hb
        · exact mem_hexLower_facts hb
  rcases this with h | h
  · simp only [isDigitByte, Bool.and_eq_true, decide_eq_true_eq] at h
    omega
  · omega

theorem signerSignature_bytes_lt (cfg : Config) (r : Request) :
    ∀ b ∈ signerSignature cfg r, b < 256 := by
  rw [signerSignature]
  rcases h : getSignature cfg r.method (r.urlScheme ++ str "://" ++ r.host)
      (r.urlPath ++ 63 :: r.urlRawQuery) r.body with e | s
  · simp [Except.toOption]
  · obtain ⟨msg, _, rfl⟩ := getSignature_ok_shape h
    simpa [Except.toOption] using getHash_bytes_lt cfg msg

/- ### Lemmas: appending a fresh signature pair commutes with Set -/

theorem valuesSet_append_single {s : Str} (q : Values) (w k v : Str) (h : ¬ k = s) :
    List.Perm (valuesSet (q ++ [(s, w)]) k v) (valuesSet q k v ++ [(s, w)]) := by
  rw [valuesSet, valuesSet, List.filter_append]
  have hsf : (([(s, w)] : Values).filter (fun p => ¬ p.1 = k)) = [(s, w)] := by
    have hne : ¬ s = k := fun he => h he.symm
    simp [hne]
  rw [hsf, List.append_assoc, List.append_assoc]
  exact List.Perm.append_left _ (List.Perm.swap (k, v) (s, w) [])

/- ### Lemmas: bytes of an encoded query -/

theorem mem_valuesEncode_facts {q : Values} {b : Nat} (h : b ∈ valuesEncode q) :
    isCtlByte b = false ∧ b ≠ 63 ∧ b < 256 := by
  rw [valuesEncode] at h
  rcases mem_joinByte h with rfl | ⟨s, hs, hb⟩
  · exact ⟨by decide, by decide, by decide⟩
  · obtain ⟨k, _, hks⟩ := List.mem_flatMap.mp hs
    obtain ⟨v, _, rfl⟩ := List.mem_map.mp hks
    rcases List.mem_append.mp hb with hb | hb
    · have hf := mem_escapeQuery_ne hb
      exact ⟨hf.2.2.2.2.1, hf.2.2.2.1, hf.2.2.2.2.2⟩
    · rcases List.mem_cons.mp hb with rfl | hb
      · exact ⟨by decide, by decide, by decide⟩
      · have hf := mem_escapeQuery_ne hb
        exact ⟨hf.2.2.2.2.1, hf.2.2.2.1, hf.2.2.2.2.2⟩

/- ### Lemmas: the verifier on a valid signature -/

theorem compareStep_none {cfg : Config} {c : VCtx}
    (h : ((getSignature cfg c.method c.baseURL c.originalURL c.body).toOption).getD [] =
      ctxQuery c cfg.signatureQueryKey) : compareStep cfg c = none := by
  rw [compareStep, if_neg (fun hc => hc h)]

theorem validateRequest_eq_compareStep {cfg : Config} {c : VCtx}
    (hsig : ¬ (ctxQuery c cfg.signatureQueryKey).isEmpty)
    (hexp : expiryPasses (ctxQuery c cfg.expiresQueryKey) c.now = true) :
    validateRequest cfg c = compareStep cfg c := by
  rw [validateRequest, if_neg hsig]
  by_cases he : (ctxQuery c cfg.expiresQueryKey).isEmpty
  · rw [if_neg (fun hne => hne he)]
  · rw [if_pos he]
    rw [expiryPasses, if_neg he] at hexp
    rcases hp : parseInt64 (ctxQuery c cfg.expiresQueryKey) with _ | i
    · rw [hp] at hexp
      exact absurd hexp (by simp)
    · rw [hp] at hexp
      have hbx : (!unixBefore i c.now) = true := hexp
      have hub : unixBefore i c.now = false := by simpa using hbx
      simp [hub]

/- ### Claims -/

/-- C9: Algorithm selection: for every input string, the SHA-256 and MD5
algorithms yield digests of 64 and 32 lowercase hex characters instead
of the default 40, hence differing in value from the default digest,
while getHash under any unrecognized Algorithm value equals getHash
under the default SHA-1 algorithm for every input, with no error (the
function is total). The final conjunct states that every byte of any
getHash output is a lowercase hex character. -/
theorem C9_algorithm_selection (cfg : Config) (s : Str) :
    (getHash { cfg with algorithm := AlgorithmSHA256 } s).length = 64 ∧
    (getHash { cfg with algorithm := AlgorithmMD5 } s).length = 32 ∧
    (getHash { cfg with algorithm := AlgorithmSHA1 } s).length = 40 ∧
    getHash { cfg with algorithm := AlgorithmSHA256 } s ≠
      getHash { cfg with algorithm := AlgorithmSHA1 } s ∧
    getHash { cfg with algorithm := AlgorithmMD5 } s ≠
      getHash { cfg with algorithm := AlgorithmSHA1 } s ∧
    (∀ a : Str, a ≠ AlgorithmSHA1 → a ≠ AlgorithmSHA256 → a ≠ AlgorithmMD5 →
      getHash { cfg with algorithm := a } s =
        getHash { cfg with algorithm := AlgorithmSHA1 } s) ∧
    (∀ b ∈ getHash cfg s, isDigitByte b = true ∨ 97 ≤ b ∧ b ≤ 102) := by
  have h256 : getHash { cfg with algorithm := AlgorithmSHA256 } s = sha256Hex s := by
    rw [getHash, if_neg (show ¬ AlgorithmSHA256 = AlgorithmSHA1 by decide), if_pos rfl]
  have hmd5 : getHash { cfg with algorithm := AlgorithmMD5 } s = md5Hex s := by
    rw [getHash, if_neg (show ¬ AlgorithmMD5 = AlgorithmSHA1 by decide),
      if_neg (show ¬ AlgorithmMD5 = AlgorithmSHA256 by decide), if_pos rfl]
  have hsha1 : getHash { cfg with algorithm := AlgorithmSHA1 } s = sha1Hex s := by
    rw [getHash, if_pos rfl]
  refine ⟨by rw [h256, sha256Hex_length], by rw [hmd5, md5Hex_length],
    by rw [hsha1, sha1Hex_length], ?_, ?_, ?_, ?_⟩
  · intro he
    have := congrArg List.length he
    rw [h256, hsha1, sha256Hex_length, sha1Hex_length] at this
    exact absurd this (by norm_num)
  · intro he
    have := congrArg List.length he
    rw [hmd5, hsha1, md5Hex_length, sha1Hex_length] at this
    exact absurd this (by norm_num)
  · intro a h1 h2 h3
    rw [hsha1, getHash, if_neg h1, if_neg h2, if_neg h3]
  · intro b hb
    rw [getHash] at hb
    split at hb
    · exact mem_hexLower_facts hb
    · split at hb
      · exact mem_hexLower_facts hb
      · split at hb
        · exact mem_hexLower_facts hb
        · exact mem_hexLower_facts hb

/-- C9 witness: the theorem applied at the default configuration, input
"x" and the unrecognized algorithm value "UNKNOWN". -/
theorem C9_algorithm_selection_witness :
    (getHash { ConfigDefault [] with algorithm := AlgorithmSHA256 } (str "x")).length = 64 ∧
    getHash { ConfigDefault [] with algorithm := str "UNKNOWN" } (str "x") =
      getHash { ConfigDefault [] with algorithm := AlgorithmSHA1 } (str "x") :=
  ⟨(C9_algorithm_selection (ConfigDefault []) (str "x")).1,
    (C9_algorithm_selection (ConfigDefault []) (str "x")).2.2.2.2.2.1 (str "UNKNOWN")
      (by decide) (by decide) (by decide)⟩

/-- C5: Concrete scenario: with secret "secret", method GET, URL
http://example.com/ and empty body, the canonical message built by
getSignature is exactly GET&http://example.com/?privateKey=secret (both
for the path-and-query string the Signer passes and for the empty
path-and-query of the repository test), and under the default algorithm
the returned signature is the lowercase SHA-1 hex digest (40 characters)
of that exact byte string. -/
theorem C5_concrete_scenario :
    canonicalMessage cfgSecret (str "GET") (str "http://example.com") (str "/?") [] =
      some (str "GET&http://example.com/?privateKey=secret") ∧
    canonicalMessage cfgSecret (str "GET") (str "http://example.com") [] [] =
      some (str "GET&http://example.com/?privateKey=secret") ∧
    getSignature cfgSecret (str "GET") (str "http://example.com") (str "/?") [] =
      Except.ok (sha1Hex (str "GET&http://example.com/?privateKey=secret")) ∧
    (sha1Hex (str "GET&http://example.com/?privateKey=secret")).length = 40 := by
  have hm : canonicalMessage cfgSecret (str "GET") (str "http://example.com") (str "/?") [] =
      some (str "GET&http://example.com/?privateKey=secret") := by decide
  refine ⟨hm, by decide, ?_, sha1Hex_length _⟩
  rw [getSignature, hm]
  show Except.ok (getHash cfgSecret (str "GET&http://example.com/?privateKey=secret")) = _
  rw [getHash_default_eq rfl]

/-- C8 counterexample: for the bare path "/", the whole string treated
as query input yields the parameter pair ("/", ""), so the canonical
message contains "/=" and is not the claimed message holding only the
injected private-key pair. -/
theorem C8_counterexample :
    canonicalMessage cfgSecret (str "GET") (str "http://example.com") (str "/") [] =
      some (str "GET&http://example.com/?/=&privateKey=secret") ∧
    str "GET&http://example.com/?/=&privateKey=secret" ≠
      str "GET&http://example.com/?privateKey=secret" :=
  ⟨by decide, by decide⟩

/-- C8 amended: when pathAndQuery contains no question mark the whole
string is treated as query input; an empty pathAndQuery yields no
parameters, so only the injected pairs appear, while a bare nonempty
path such as "/" or "/users" yields one pair whose key is the path
itself with an empty value, which then appears in the canonical
ordered-params string alongside the injected private-key pair. -/
theorem C8_amended_query_extraction :
    (∀ o : Str, o.contains 63 = false → extractQueryInput o = o) ∧
    parseQuery [] = [] ∧
    canonicalMessage cfgSecret (str "GET") (str "http://example.com") [] [] =
      some (str "GET&http://example.com/?privateKey=secret") ∧
    parseQuery (str "/") = [(str "/", [])] ∧
    parseQuery (str "/users") = [(str "/users", [])] ∧
    canonicalMessage cfgSecret (str "GET") (str "http://example.com") (str "/users") [] =
      some (str "GET&http://example.com/users?/users=&privateKey=secret") := by
  refine ⟨?_, by decide, by decide, by decide, by decide, by decide⟩
  intro o h
  rw [extractQueryInput, if_neg (by rw [h]; simp)]

/-- C8 witness: the extraction clause of the amended theorem applied to
a concrete query-only string without a question mark. -/
theorem C8_amended_query_extraction_witness :
    extractQueryInput (str "a=1") = str "a=1" :=
  C8_amended_query_extraction.1 (str "a=1") (by decide)

/-- C3: evaluation at the failing input: with SignatureQueryKey
overridden to "sig", the Signer appends the computed 40-character
signature under the literal key "signature" and nothing under "sig", and
a round trip through the Verifier of the same configuration rejects the
signed URL with MissingSignature. -/
theorem C3_signer_ignores_configured_key :
    ((GetSignedURLFromHTTPRequest cfgSigOverride reqRoot).toOption.map
        (fun p => (valuesGet (parseQuery p.2.urlRawQuery) (str "sig"),
          (valuesGet (parseQuery p.2.urlRawQuery) (str "signature")).length))) =
      some ([], 40) ∧
    signedRoundTrip cfgSigOverride reqRoot ⟨0, 0⟩ =
      Except.ok (some ValidationError.missingSignature) :=
  ⟨by decide, by decide⟩

/-- C4 counterexample: for a request whose URL fails to parse (empty
scheme), GetSignedURLFromHTTPRequest does not return the MalformedURL
error: it discards it and returns ok with a URL whose signature
parameter is empty. -/
theorem C4_counterexample :
    GetSignedURLFromHTTPRequest cfgSecret reqNoScheme =
      Except.ok (str "//example.com/?signature=",
        ⟨str "GET", [], str "example.com", str "/", str "signature=", []⟩) := by
  decide

/-- C6: Expiry check of the Verifier (time modelled as Unix seconds plus
nanoseconds, so before means strictly before the current instant): when
a signature parameter is present, an absent expiry parameter never
causes an expiry failure; a present but unparseable expiry value fails
with InvalidExpiry; a parsed timestamp strictly before the current time
fails with Expired; and a timestamp at or after the current time passes
the expiry check (the outcome is never an expiry error). -/
theorem C6_expiry_check (cfg : Config) (c : VCtx)
    (hsig : ctxQuery c cfg.signatureQueryKey ≠ []) :
    (ctxQuery c cfg.expiresQueryKey = [] →
      validateRequest cfg c ≠ some ValidationError.invalidExpiry ∧
      validateRequest cfg c ≠ some ValidationError.expired) ∧
    (ctxQuery c cfg.expiresQueryKey ≠ [] →
      parseInt64 (ctxQuery c cfg.expiresQueryKey) = none →
      validateRequest cfg c = some ValidationError.invalidExpiry) ∧
    (∀ i : Int, parseInt64 (ctxQuery c cfg.expiresQueryKey) = some i →
      unixBefore i c.now = true → validateRequest cfg c = some ValidationError.expired) ∧
    (∀ i : Int, parseInt64 (ctxQuery c cfg.expiresQueryKey) = some i →
      unixBefore i c.now = false →
      validateRequest cfg c ≠ some ValidationError.invalidExpiry ∧
      validateRequest cfg c ≠ some ValidationError.expired) := by
  have hsE : ¬ (ctxQuery c cfg.signatureQueryKey).isEmpty = true := by simp [hsig]
  have hcmp : compareStep cfg c ≠ some ValidationError.invalidExpiry ∧
      compareStep cfg c ≠ some ValidationError.expired := by
    rw [compareStep]
    constructor <;> (split <;> simp)
  refine ⟨?_, ?_, ?_, ?_⟩
  · intro hev
    rw [validateRequest, if_neg hsE, if_neg (by simp [hev])]
    exact hcmp
  · intro hev hpe
    rw [validateRequest, if_neg hsE, if_pos (by simp [hev]), hpe]
  · intro i hpi hbef
    have hev : ¬ (ctxQuery c cfg.expiresQueryKey).isEmpty = true := by
      intro he
      rw [List.isEmpty_eq_true] at he
      rw [he] at hpi
      rw [show parseInt64 [] = none from rfl] at hpi
      exact Option.noConfusion hpi
    rw [validateRequest, if_neg hsE, if_pos (by simp [hev]), hpi]
    simp [hbef]
  · intro i hpi hbef
    have hev : ¬ (ctxQuery c cfg.expiresQueryKey).isEmpty = true := by
      intro he
      rw [List.isEmpty_eq_true] at he
      rw [he] at hpi
      rw [show parseInt64 [] = none from rfl] at hpi
      exact Option.noConfusion hpi
    rw [validateRequest, if_neg hsE, if_pos (by simp [hev]), hpi]
    simpa [hbef] using hcmp

/-- C6 witness: a context with a signature parameter and the expiry
value "xyz", which does not parse, is rejected with InvalidExpiry; one
with expiry 100 at an instant strictly later is rejected with Expired. -/
theorem C6_expiry_check_witness :
    validateRequest cfgSecret ⟨str "GET", str "http://example.com",
        str "/?signature=abc&expires=xyz", [], ⟨100, 0⟩⟩ =
      some ValidationError.invalidExpiry ∧
    validateRequest cfgSecret ⟨str "GET", str "http://example.com",
        str "/?signature=abc&expires=100", [], ⟨100, 5⟩⟩ =
      some ValidationError.expired :=
  ⟨(C6_expiry_check cfgSecret _ (by decide)).2.1 (by decide) (by decide),
    (C6_expiry_check cfgSecret _ (by decide)).2.2.1 100 (by decide) (by decide)⟩

/-- C7: Reserved-parameter rejection: whenever the query of the request
holds a non-empty value (in the sense of Values.Get, the first value
under the key) for the signature key, the private-key key or the
body-hash key, GetSignedURLFromHTTPRequest returns ReservedParameterError
naming the first such key, producing no URL; and the result is the same
for any configuration agreeing on the three key names regardless of its
algorithm or private key, so no signature is computed before the
rejection. -/
theorem C7_reserved_parameter (cfg : Config) (r : Request)
    (h : valuesGet (parseQuery r.urlRawQuery) cfg.signatureQueryKey ≠ [] ∨
      valuesGet (parseQuery r.urlRawQuery) cfg.privateKeyQueryKey ≠ [] ∨
      valuesGet (parseQuery r.urlRawQuery) cfg.bodyHashQueryKey ≠ []) :
    GetSignedURLFromHTTPRequest cfg r =
      Except.error (SignError.reservedParameter
        (if valuesGet (parseQuery r.urlRawQuery) cfg.signatureQueryKey ≠ [] then
          cfg.signatureQueryKey
        else if valuesGet (parseQuery r.urlRawQuery) cfg.privateKeyQueryKey ≠ [] then
          cfg.privateKeyQueryKey
        else cfg.bodyHashQueryKey)) ∧
    (∀ cfg2 : Config, cfg2.signatureQueryKey = cfg.signatureQueryKey →
      cfg2.privateKeyQueryKey = cfg.privateKeyQueryKey →
      cfg2.bodyHashQueryKey = cfg.bodyHashQueryKey →
      GetSignedURLFromHTTPRequest cfg2 r = GetSignedURLFromHTTPRequest cfg r) := by
  have main : ∀ cfg3 : Config,
      cfg3.signatureQueryKey = cfg.signatureQueryKey →
      cfg3.privateKeyQueryKey = cfg.privateKeyQueryKey →
      cfg3.bodyHashQueryKey = cfg.bodyHashQueryKey →
      GetSignedURLFromHTTPRequest cfg3 r =
        Except.error (SignError.reservedParameter
          (if valuesGet (parseQuery r.urlRawQuery) cfg.signatureQueryKey ≠ [] then
            cfg.signatureQueryKey
          else if valuesGet (parseQuery r.urlRawQuery) cfg.privateKeyQueryKey ≠ [] then
            cfg.privateKeyQueryKey
          else cfg.bodyHashQueryKey)) := by
    intro cfg3 h1 h2 h3
    rw [GetSignedURLFromHTTPRequest, h1, h2, h3]
    by_cases hs : valuesGet (parseQuery r.urlRawQuery) cfg.signatureQueryKey = []
    · rw [if_neg (by simp [hs])]
      by_cases hp : valuesGet (parseQuery r.urlRawQuery) cfg.privateKeyQueryKey = []
      · rw [if_neg (by simp [hp])]
        have hb : valuesGet (parseQuery r.urlRawQuery) cfg.bodyHashQueryKey ≠ [] := by
          tauto
        rw [if_pos (by simp [hb]), if_neg (by simp [hs]), if_neg (by simp [hp])]
      · rw [if_pos (by simp [hp]), if_neg (by simp [hs]), if_pos (by simp [hp])]
    · rw [if_pos (by simp [hs]), if_pos (by simp [hs])]
  refine ⟨main cfg rfl rfl rfl, ?_⟩
  intro cfg2 h1 h2 h3
  rw [main cfg2 h1 h2 h3, main cfg rfl rfl rfl]

/-- C7 witness: a request pre-supplying privateKey=x is rejected with
the ReservedParameterError naming privateKey, under the default keys. -/
theorem C7_reserved_parameter_witness :
    GetSignedURLFromHTTPRequest cfgSecret
        ⟨str "GET", str "http", str "example.com", str "/", str "privateKey=x", []⟩ =
      Except.error (SignError.reservedParameter (str "privateKey")) := by
  have := (C7_reserved_parameter cfgSecret
    ⟨str "GET", str "http", str "example.com", str "/", str "privateKey=x", []⟩
    (Or.inr (Or.inl (by decide)))).1
  rw [this]
  decide

/-- C4 amended: when the concatenated URL fails to parse, getSignature
fails with MalformedURL; but GetSignedURLFromHTTPRequest discards that
error and returns ok (no error to the caller) with a URL carrying an
empty signature value; and inbound verification of a request whose URL
fails to parse is always rejected (never validated), though with
MissingSignature, an expiry error or SignatureMismatch rather than
MalformedURL. -/
theorem C4_amended_malformed_url (cfg : Config) (method b o body : Str) (r : Request)
    (c : VCtx)
    (hp : parseRequestURI (b ++ o) = none)
    (hr : parseRequestURI ((r.urlScheme ++ str "://" ++ r.host) ++
      (r.urlPath ++ 63 :: r.urlRawQuery)) = none)
    (hres1 : valuesGet (parseQuery r.urlRawQuery) cfg.signatureQueryKey = [])
    (hres2 : valuesGet (parseQuery r.urlRawQuery) cfg.privateKeyQueryKey = [])
    (hres3 : valuesGet (parseQuery r.urlRawQuery) cfg.bodyHashQueryKey = [])
    (hc : parseRequestURI (c.baseURL ++ c.originalURL) = none) :
    getSignature cfg method b o body = Except.error URLParseError.malformedURL ∧
    GetSignedURLFromHTTPRequest cfg r =
      Except.ok (urlString ⟨r.urlScheme, r.host, r.urlPath,
          valuesEncode (valuesAdd (parseQuery r.urlRawQuery) (str "signature") [])⟩,
        { r with urlRawQuery :=
          valuesEncode (valuesAdd (parseQuery r.urlRawQuery) (str "signature") []) }) ∧
    validateRequest cfg c ≠ none := by
  have hcm : canonicalMessage cfg method b o body = none := by
    rw [canonicalMessage, hp]
  have hsig : getSignature cfg r.method (r.urlScheme ++ str "://" ++ r.host)
      (r.urlPath ++ 63 :: r.urlRawQuery) r.body = Except.error URLParseError.malformedURL := by
    rw [getSignature, canonicalMessage, hr]
  refine ⟨by rw [getSignature, hcm], ?_, ?_⟩
  · rw [GetSignedURLFromHTTPRequest, if_neg (by simp [hres1]), if_neg (by simp [hres2]),
      if_neg (by simp [hres3]), hsig]
    rfl
  · intro hval
    rw [validateRequest] at hval
    by_cases hse : (ctxQuery c cfg.signatureQueryKey).isEmpty = true
    · rw [if_pos hse] at hval
      exact Option.noConfusion hval
    · rw [if_neg hse] at hval
      have hcs : getSignature cfg c.method c.baseURL c.originalURL c.body =
          Except.error URLParseError.malformedURL := by
        rw [getSignature, canonicalMessage, hc]
      have hcmp : compareStep cfg c = some ValidationError.signatureMismatch := by
        rw [compareStep, hcs, if_pos]
        intro he
        rw [List.isEmpty_eq_true] at hse
        exact hse he.symm
      split at hval
      · exact Option.noConfusion hval
      · rw [hcmp] at hval
        exact Option.noConfusion hval

/-- C4 witness: a malformed baseURL gives the MalformedURL error from
getSignature, and a verification context with an unparseable URL and a
supplied signature is rejected. -/
theorem C4_amended_malformed_url_witness :
    getSignature cfgSecret (str "GET") (str "x") [] [] =
      Except.error URLParseError.malformedURL ∧
    validateRequest cfgSecret
      ⟨str "GET", str "://example.com", str "/?signature=abc", [], ⟨0, 0⟩⟩ ≠ none :=
  ⟨(C4_amended_malformed_url cfgSecret (str "GET") (str "x") [] [] reqNoScheme
      ⟨str "GET", str "://example.com", str "/?signature=abc", [], ⟨0, 0⟩⟩
      (by decide) (by decide) (by decide) (by decide) (by decide) (by decide)).1,
    (C4_amended_malformed_url cfgSecret (str "GET") (str "x") [] [] reqNoScheme
      ⟨str "GET", str "://example.com", str "/?signature=abc", [], ⟨0, 0⟩⟩
      (by decide) (by decide) (by decide) (by decide) (by decide) (by decide)).2.2⟩

/-- C2: Order independence: two Canonicalizer inputs with equal method
and body whose URLs parse with equal scheme, host and path, and whose
extracted query pairs are equal as a key-to-multiset-of-values mapping
(a permutation of the pair lists), receive the identical signature from
getSignature; in particular two URLs differing only in the order of
their query parameters do. -/
theorem C2_order_independence (cfg : Config) (method b1 o1 b2 o2 body : Str)
    (u1 u2 : GoURL)
    (h1 : parseRequestURI (b1 ++ o1) = some u1)
    (h2 : parseRequestURI (b2 ++ o2) = some u2)
    (hs : u1.scheme = u2.scheme) (hh : u1.host = u2.host) (hp : u1.path = u2.path)
    (hq : List.Perm (parseQuery (extractQueryInput o1)) (parseQuery (extractQueryInput o2))) :
    getSignature cfg method b1 o1 body = getSignature cfg method b2 o2 body := by
  have hperm1 : List.Perm
      (valuesSet (parseQuery (extractQueryInput o1)) cfg.privateKeyQueryKey cfg.privateKey)
      (valuesSet (parseQuery (extractQueryInput o2)) cfg.privateKeyQueryKey cfg.privateKey) :=
    valuesSet_perm hq _ _
  have hperm2 : ∀ q1 q2 : Values, List.Perm q1 q2 →
      orderQueryParams cfg (if 0 < body.length then
        valuesSet q1 cfg.bodyHashQueryKey (getHash cfg body) else q1) =
      orderQueryParams cfg (if 0 < body.length then
        valuesSet q2 cfg.bodyHashQueryKey (getHash cfg body) else q2) := by
    intro q1 q2 hpm
    split
    · exact orderQueryParams_perm cfg (valuesSet_perm hpm _ _)
    · exact orderQueryParams_perm cfg hpm
  rw [getSignature, getSignature, canonicalMessage, canonicalMessage, h1, h2]
  simp only [hs, hh, hp]
  rw [hperm2 _ _ hperm1]

/-- C2 witness: the theorem applied to /x?a=1&b=2 and /x?b=2&a=1 on the
same base URL, whose parsed query pairs are permutations. -/
theorem C2_order_independence_witness :
    getSignature cfgSecret (str "GET") (str "http://example.com") (str "/x?a=1&b=2")
        (str "body") =
      getSignature cfgSecret (str "GET") (str "http://example.com") (str "/x?b=2&a=1")
        (str "body") :=
  C2_order_independence cfgSecret (str "GET") (str "http://example.com")
    (str "/x?a=1&b=2") (str "http://example.com") (str "/x?b=2&a=1") (str "body")
    ⟨str "http", str "example.com", str "/x", str "a=1&b=2"⟩
    ⟨str "http", str "example.com", str "/x", str "b=2&a=1"⟩
    (by decide) (by decide) (by decide) (by decide) (by decide) (by decide)

/-- C10: frame effect of the Signer: on success (no reserved parameter
present, stated via the three Get-values being empty),
GetSignedURLFromHTTPRequest returns ok and overwrites the urlRawQuery of
its argument request with the re-encoding signerNewRawQuery of the full
query including the newly added signature parameter: the returned request
state carries signerNewRawQuery; parsing that new raw query back yields
exactly the original query pairs plus the appended signature pair (as a
permutation, keys sorted by the re-encoding); the signature parameter is
retrievable from it by Get; and whenever the original query had no
parameter under the literal key signature, the new raw query differs from
the original raw query string, so the caller's request object no longer
carries it. -/
theorem C10_raw_query_mutation (cfg : Config) (r : Request)
    (hres1 : valuesGet (parseQuery r.urlRawQuery) cfg.signatureQueryKey = [])
    (hres2 : valuesGet (parseQuery r.urlRawQuery) cfg.privateKeyQueryKey = [])
    (hres3 : valuesGet (parseQuery r.urlRawQuery) cfg.bodyHashQueryKey = [])
    (h256 : ∀ b ∈ r.urlRawQuery, b < 256)
    (hnosig : str "signature" ∉ (parseQuery r.urlRawQuery).map Prod.fst) :
    GetSignedURLFromHTTPRequest cfg r =
      Except.ok
        (urlString ⟨r.urlScheme, r.host, r.urlPath, signerNewRawQuery cfg r⟩,
          { r with urlRawQuery := signerNewRawQuery cfg r }) ∧
    List.Perm (parseQuery (signerNewRawQuery cfg r))
      (valuesAdd (parseQuery r.urlRawQuery) (str "signature") (signerSignature cfg r)) ∧
    valuesGet (parseQuery (signerNewRawQuery cfg r)) (str "signature") =
      signerSignature cfg r ∧
    signerNewRawQuery cfg r ≠ r.urlRawQuery := by
  have hb : ∀ p ∈ valuesAdd (parseQuery r.urlRawQuery) (str "signature")
      (signerSignature cfg r), (∀ b ∈ p.1, b < 256) ∧ (∀ b ∈ p.2, b < 256) := by
    intro p hp
    rcases List.mem_append.mp hp with hp | hp
    · exact parseQuery_bytes h256 p hp
    · rw [List.mem_singleton.mp hp]
      refine ⟨?_, signerSignature_bytes_lt cfg r⟩
      show ∀ b ∈ str "signature", b < 256
      decide
  have hpq : parseQuery (signerNewRawQuery cfg r) =
      encodeOrderPairs (valuesAdd (parseQuery r.urlRawQuery) (str "signature")
        (signerSignature cfg r)) := by
    rw [signerNewRawQuery]
    exact parseQuery_valuesEncode _ hb
  refine ⟨?_, ?_, ?_, ?_⟩
  · rw [GetSignedURLFromHTTPRequest]
    simp only [hres1, hres2, hres3, List.isEmpty_nil, not_true, if_false]
    rfl
  · rw [hpq]
    exact encodeOrderPairs_perm _
  · rw [hpq, valuesGet_encodeOrderPairs, valuesAdd, valuesGet, valuesAll_append,
      valuesAll_eq_nil_of_not_mem hnosig, valuesAll_singleton_self]
    rfl
  · intro heq
    apply hnosig
    rw [← heq, hpq]
    have hmem : (str "signature", signerSignature cfg r) ∈
        encodeOrderPairs (valuesAdd (parseQuery r.urlRawQuery) (str "signature")
          (signerSignature cfg r)) := by
      apply (encodeOrderPairs_perm _).mem_iff.mpr
      exact List.mem_append_right _ (List.mem_singleton.mpr rfl)
    exact List.mem_map_of_mem Prod.fst hmem

/-- C10 witness: the theorem at the default configuration with secret
"secret" and a GET request to http://example.com/x?a=1 with body. -/
theorem C10_raw_query_mutation_witness :
    GetSignedURLFromHTTPRequest cfgSecret reqQuery =
      Except.ok
        (urlString ⟨reqQuery.urlScheme, reqQuery.host, reqQuery.urlPath,
            signerNewRawQuery cfgSecret reqQuery⟩,
          { reqQuery with urlRawQuery := signerNewRawQuery cfgSecret reqQuery }) ∧
    List.Perm (parseQuery (signerNewRawQuery cfgSecret reqQuery))
      (valuesAdd (parseQuery reqQuery.urlRawQuery) (str "signature")
        (signerSignature cfgSecret reqQuery)) ∧
    valuesGet (parseQuery (signerNewRawQuery cfgSecret reqQuery)) (str "signature") =
      signerSignature cfgSecret reqQuery ∧
    signerNewRawQuery cfgSecret reqQuery ≠ reqQuery.urlRawQuery :=
  C10_raw_query_mutation cfgSecret reqQuery (by decide) (by decide) (by decide)
    (by decide) (by decide)

/-- C1 counterexample: a request the Signer accepts (it returns ok, no
reserved parameter present) whose signed URL the Verifier rejects under
the same configuration: with the signature query key overridden to sig,
the Signer still appends the signature under the literal key signature,
so the round trip ends in a rejection instead of ok none. -/
theorem C1_counterexample :
    (GetSignedURLFromHTTPRequest cfgSigOverride reqRoot).toOption ≠ none ∧
    signedRoundTrip cfgSigOverride reqRoot ⟨0, 0⟩ ≠ Except.ok none := by
  constructor
  · decide
  · decide

/-- C1 (amended): the round trip holds when the configured signature
query key is the default literal signature (the Signer hardcodes that
key): for every configuration whose signature key is signature and whose
other reserved keys differ from it, and every wellformed request (lean
lowercase scheme, plain host with a valid port, escaped path starting
with a slash, raw query of byte values free of control bytes and
question marks, no parameter under the key signature and empty private
key and body hash parameters) whose expires parameter passes the expiry
check at the verification instant, the URL returned by
GetSignedURLFromHTTPRequest, presented unmodified to validateRequest
under the same configuration, verifies as valid (ok none). The host is
required not to start with an opening bracket: bracketed hosts take the
separate bracket branch of Go parseHost. -/
theorem C1_amended_round_trip (cfg : Config) (r : Request) (now : Instant)
    (hsk : cfg.signatureQueryKey = str "signature")
    (hpkne : ¬ cfg.privateKeyQueryKey = str "signature")
    (hbhne : ¬ cfg.bodyHashQueryKey = str "signature")
    (hexne : ¬ cfg.expiresQueryKey = str "signature")
    (hsne : r.urlScheme ≠ []) (hs : ∀ b ∈ r.urlScheme, 97 ≤ b ∧ b ≤ 122)
    (hhk : ∀ b ∈ r.host, isHostByteKept b = true) (hhp : portValid r.host = true)
    (hnb : r.host.take 1 ≠ [91])
    (hpk : ∀ b ∈ r.urlPath, isPathByteKept b = true) (hph : r.urlPath.take 1 = [47])
    (hrq : ∀ b ∈ r.urlRawQuery, b < 256 ∧ isCtlByte b = false ∧ b ≠ 63)
    (hnosig : str "signature" ∉ (parseQuery r.urlRawQuery).map Prod.fst)
    (hres2 : valuesGet (parseQuery r.urlRawQuery) cfg.privateKeyQueryKey = [])
    (hres3 : valuesGet (parseQuery r.urlRawQuery) cfg.bodyHashQueryKey = [])
    (hexp : expiryPasses (valuesGet (parseQuery r.urlRawQuery) cfg.expiresQueryKey)
      now = true) :
    signedRoundTrip cfg r now = Except.ok none := by
  have hQb : ∀ p ∈ parseQuery r.urlRawQuery, (∀ b ∈ p.1, b < 256) ∧ (∀ b ∈ p.2, b < 256) :=
    parseQuery_bytes (fun b hb => (hrq b hb).1)
  obtain ⟨pt, hpt⟩ : ∃ pt, r.urlPath = 47 :: pt := by
    cases hp0 : r.urlPath with
    | nil => rw [hp0] at hph; simp at hph
    | cons p0 t =>
      rw [hp0, List.take_succ_cons, List.take_zero] at hph
      injection hph with h1 _
      exact ⟨t, by rw [h1]⟩
  have hno63path : (63 : Nat) ∉ r.urlPath := fun hm =>
    (isPathByteKept_facts (hpk 63 hm)).2.1 rfl
  have hno63q : (63 : Nat) ∉ r.urlRawQuery := fun hm => (hrq 63 hm).2.2 rfl
  have hb : ∀ p ∈ parseQuery r.urlRawQuery ++ [(str "signature", signerSignature cfg r)],
      (∀ b ∈ p.1, b < 256) ∧ (∀ b ∈ p.2, b < 256) := by
    intro p hp
    rcases List.mem_append.mp hp with hp | hp
    · exact hQb p hp
    · rw [List.mem_singleton.mp hp]
      refine ⟨?_, signerSignature_bytes_lt cfg r⟩
      show ∀ b ∈ str "signature", b < 256
      decide
  have hq'eq : parseQuery (signerNewRawQuery cfg r) =
      encodeOrderPairs (parseQuery r.urlRawQuery ++
        [(str "signature", signerSignature cfg r)]) := by
    rw [signerNewRawQuery, valuesAdd]
    exact parseQuery_valuesEncode _ hb
  have hfast : fasthttpParseArgs (signerNewRawQuery cfg r) =
      encodeOrderPairs (parseQuery r.urlRawQuery ++
        [(str "signature", signerSignature cfg r)]) := by
    rw [signerNewRawQuery, valuesAdd]
    exact fasthttpParseArgs_valuesEncode _ hb
  have hnewb : ∀ b ∈ signerNewRawQuery cfg r, isCtlByte b = false ∧ b ≠ 63 := by
    intro b hbm
    rw [signerNewRawQuery] at hbm
    have hf := mem_valuesEncode_facts hbm
    exact ⟨hf.1, hf.2.1⟩
  have hno63new : (63 : Nat) ∉ signerNewRawQuery cfg r := fun hm => (hnewb 63 hm).2 rfl
  have hparse1 : parseRequestURI ((r.urlScheme ++ str "://" ++ r.host) ++
      (r.urlPath ++ 63 :: r.urlRawQuery)) =
      some ⟨r.urlScheme, r.host, r.urlPath, r.urlRawQuery⟩ := by
    have hw := parseRequestURI_wellformed r.urlScheme r.host r.urlPath r.urlRawQuery
      hsne hs hhk hhp hnb hpk hph (fun b hbm => ⟨(hrq b hbm).2.1, (hrq b hbm).2.2⟩)
    simpa [List.append_assoc] using hw
  have hparse2 : parseRequestURI ((r.urlScheme ++ str "://" ++ r.host) ++
      (r.urlPath ++ 63 :: signerNewRawQuery cfg r)) =
      some ⟨r.urlScheme, r.host, r.urlPath, signerNewRawQuery cfg r⟩ := by
    have hw := parseRequestURI_wellformed r.urlScheme r.host r.urlPath
      (signerNewRawQuery cfg r) hsne hs hhk hhp hnb hpk hph hnewb
    simpa [List.append_assoc] using hw
  have hqext1 : extractQueryInput (r.urlPath ++ 63 :: r.urlRawQuery) = r.urlRawQuery := by
    rw [extractQueryInput, if_pos (by simp)]
    rw [splitOnByte_append_sep _ hno63path, splitOnByte_no_sep hno63q]
    rfl
  have hqext2 : extractQueryInput (r.urlPath ++ 63 :: signerNewRawQuery cfg r) =
      signerNewRawQuery cfg r := by
    rw [extractQueryInput, if_pos (by simp)]
    rw [splitOnByte_append_sep _ hno63path, splitOnByte_no_sep hno63new]
    rfl
  have hperm1 : List.Perm (parseQuery (signerNewRawQuery cfg r))
      (parseQuery r.urlRawQuery ++ [(str "signature", signerSignature cfg r)]) := by
    rw [hq'eq]
    exact encodeOrderPairs_perm _
  have hperm2 : List.Perm
      (valuesSet (parseQuery (signerNewRawQuery cfg r)) cfg.privateKeyQueryKey
        cfg.privateKey)
      (valuesSet (parseQuery r.urlRawQuery) cfg.privateKeyQueryKey cfg.privateKey ++
        [(str "signature", signerSignature cfg r)]) :=
    (valuesSet_perm hperm1 _ _).trans (valuesSet_append_single _ _ _ _ hpkne)
  have hperm3 : List.Perm
      (if 0 < r.body.length then
        valuesSet (valuesSet (parseQuery (signerNewRawQuery cfg r))
          cfg.privateKeyQueryKey cfg.privateKey) cfg.bodyHashQueryKey (getHash cfg r.body)
      else valuesSet (parseQuery (signerNewRawQuery cfg r)) cfg.privateKeyQueryKey
        cfg.privateKey)
      ((if 0 < r.body.length then
        valuesSet (valuesSet (parseQuery r.urlRawQuery) cfg.privateKeyQueryKey
          cfg.privateKey) cfg.bodyHashQueryKey (getHash cfg r.body)
      else valuesSet (parseQuery r.urlRawQuery) cfg.privateKeyQueryKey cfg.privateKey) ++
        [(str "signature", signerSignature cfg r)]) := by
    split
    · exact (valuesSet_perm hperm2 _ _).trans (valuesSet_append_single _ _ _ _ hbhne)
    · exact hperm2
  have hord : orderQueryParams cfg
      (if 0 < r.body.length then
        valuesSet (valuesSet (parseQuery (signerNewRawQuery cfg r))
          cfg.privateKeyQueryKey cfg.privateKey) cfg.bodyHashQueryKey (getHash cfg r.body)
      else valuesSet (parseQuery (signerNewRawQuery cfg r)) cfg.privateKeyQueryKey
        cfg.privateKey) =
    orderQueryParams cfg
      (if 0 < r.body.length then
        valuesSet (valuesSet (parseQuery r.urlRawQuery) cfg.privateKeyQueryKey
          cfg.privateKey) cfg.bodyHashQueryKey (getHash cfg r.body)
      else valuesSet (parseQuery r.urlRawQuery) cfg.privateKeyQueryKey cfg.privateKey) := by
    refine (orderQueryParams_perm cfg hperm3).trans ?_
    rw [← hsk]
    exact orderQueryParams_append_sigKey cfg _ _
  have hmain : canonicalMessage cfg r.method (r.urlScheme ++ str "://" ++ r.host)
      (r.urlPath ++ 63 :: signerNewRawQuery cfg r) r.body =
    canonicalMessage cfg r.method (r.urlScheme ++ str "://" ++ r.host)
      (r.urlPath ++ 63 :: r.urlRawQuery) r.body := by
    rw [canonicalMessage, canonicalMessage, hparse1, hparse2]
    simp only [hqext1, hqext2]
    rw [hord]
  have hgs : getSignature cfg r.method (r.urlScheme ++ str "://" ++ r.host)
      (r.urlPath ++ 63 :: signerNewRawQuery cfg r) r.body =
    getSignature cfg r.method (r.urlScheme ++ str "://" ++ r.host)
      (r.urlPath ++ 63 :: r.urlRawQuery) r.body := by
    rw [getSignature, getSignature, hmain]
  have hσne : signerSignature cfg r ≠ [] := by
    have hcms : ∃ msg, canonicalMessage cfg r.method (r.urlScheme ++ str "://" ++ r.host)
        (r.urlPath ++ 63 :: r.urlRawQuery) r.body = some msg := by
      rw [canonicalMessage, hparse1]
      exact ⟨_, rfl⟩
    obtain ⟨msg, hm⟩ := hcms
    rw [signerSignature, getSignature, hm]
    show getHash cfg msg ≠ []
    exact getHash_ne_nil cfg msg
  have hres1 : valuesGet (parseQuery r.urlRawQuery) cfg.signatureQueryKey = [] := by
    rw [hsk, valuesGet, valuesAll_eq_nil_of_not_mem hnosig]
    rfl
  have hsign : GetSignedURLFromHTTPRequest cfg r = Except.ok
      (urlString ⟨r.urlScheme, r.host, r.urlPath, signerNewRawQuery cfg r⟩,
        { r with urlRawQuery := signerNewRawQuery cfg r }) := by
    rw [GetSignedURLFromHTTPRequest]
    simp only [hres1, hres2, hres3, List.isEmpty_nil, not_true, if_false]
    rfl
  have hse : r.urlScheme.isEmpty = false := by
    cases hsc : r.urlScheme with
    | nil => exact absurd hsc hsne
    | cons a t => rfl
  have hnewne : signerNewRawQuery cfg r ≠ [] := by
    rw [signerNewRawQuery]
    apply valuesEncode_ne_nil
    simp [valuesAdd]
  have hnewe : (signerNewRawQuery cfg r).isEmpty = false := by
    cases hsc : signerNewRawQuery cfg r with
    | nil => exact absurd hsc hnewne
    | cons a t => rfl
  have hurl : urlString ⟨r.urlScheme, r.host, r.urlPath, signerNewRawQuery cfg r⟩ =
      r.urlScheme ++ 58 :: (47 :: 47 ::
        (r.host ++ (r.urlPath ++ 63 :: signerNewRawQuery cfg r))) := by
    simp only [urlString, escapePath_of_kept hpk, escapeHost_of_kept hhk]
    rw [if_neg (by simp [hse]), if_pos (by simp [hse, hpt]),
      if_neg (by simp [hph]), if_neg (by simp [hnewe])]
    simp [List.append_assoc]
  have h47host : ∀ b ∈ r.host, (fun b => decide (¬ b = 47)) b = true := by
    intro b hbm
    simp [(isHostByteKept_facts (hhk b hbm)).2.2.1]
  have hno58scheme : (58 : Nat) ∉ r.urlScheme := by
    intro hm
    have := hs 58 hm
    omega
  have hsplit : splitAbsURL (r.urlScheme ++ 58 :: (47 :: 47 ::
      (r.host ++ (r.urlPath ++ 63 :: signerNewRawQuery cfg r)))) =
      (r.urlScheme ++ str "://" ++ r.host,
        r.urlPath ++ 63 :: signerNewRawQuery cfg r) := by
    simp only [splitAbsURL, cutByte_append_sep _ hno58scheme]
    rw [hpt]
    have htw := @takeWhile_append_cons_stop (fun b => decide (¬ b = 47)) r.host 47
      (pt ++ 63 :: signerNewRawQuery cfg r) h47host (by simp)
    simp only [List.drop_succ_cons, List.drop_zero, List.cons_append, List.append_assoc]
    rw [htw.1, htw.2]
  have hctxq : ctxQueryString ⟨r.method, r.urlScheme ++ str "://" ++ r.host,
      r.urlPath ++ 63 :: signerNewRawQuery cfg r, r.body, now⟩ =
      signerNewRawQuery cfg r := by
    rw [ctxQueryString]
    show (cutByte 63 (r.urlPath ++ 63 :: signerNewRawQuery cfg r)).2 =
      signerNewRawQuery cfg r
    rw [cutByte_append_sep _ hno63path]
  have hctx : ∀ k, ctxQuery ⟨r.method, r.urlScheme ++ str "://" ++ r.host,
      r.urlPath ++ 63 :: signerNewRawQuery cfg r, r.body, now⟩ k =
      valuesGet (encodeOrderPairs (parseQuery r.urlRawQuery ++
        [(str "signature", signerSignature cfg r)])) k := by
    intro k
    rw [ctxQuery, hctxq, hfast]
  have hsigv : ctxQuery ⟨r.method, r.urlScheme ++ str "://" ++ r.host,
      r.urlPath ++ 63 :: signerNewRawQuery cfg r, r.body, now⟩ cfg.signatureQueryKey =
      signerSignature cfg r := by
    rw [hctx, hsk, valuesGet_encodeOrderPairs, valuesGet, valuesAll_append,
      valuesAll_eq_nil_of_not_mem hnosig, valuesAll_singleton_self]
    rfl
  have hexpv : ctxQuery ⟨r.method, r.urlScheme ++ str "://" ++ r.host,
      r.urlPath ++ 63 :: signerNewRawQuery cfg r, r.body, now⟩ cfg.expiresQueryKey =
      valuesGet (parseQuery r.urlRawQuery) cfg.expiresQueryKey := by
    rw [hctx, valuesGet_encodeOrderPairs, valuesGet, valuesGet, valuesAll_append,
      valuesAll_singleton_ne _ (Ne.symm hexne)]
    simp
  have hcomp : ((getSignature cfg r.method (r.urlScheme ++ str "://" ++ r.host)
      (r.urlPath ++ 63 :: signerNewRawQuery cfg r) r.body).toOption).getD [] =
      signerSignature cfg r := by
    rw [hgs, signerSignature]
  have hvr : validateRequest cfg ⟨r.method, r.urlScheme ++ str "://" ++ r.host,
      r.urlPath ++ 63 :: signerNewRawQuery cfg r, r.body, now⟩ = none := by
    rw [validateRequest_eq_compareStep (by rw [hsigv]; simpa using hσne)
      (by rw [hexpv]; exact hexp)]
    exact compareStep_none (hcomp.trans hsigv.symm)
  rw [signedRoundTrip, hsign]
  show Except.ok (validateRequest cfg ⟨r.method,
    (splitAbsURL (urlString ⟨r.urlScheme, r.host, r.urlPath,
      signerNewRawQuery cfg r⟩)).1,
    (splitAbsURL (urlString ⟨r.urlScheme, r.host, r.urlPath,
      signerNewRawQuery cfg r⟩)).2, r.body, now⟩) = Except.ok none
  rw [hurl, hsplit]
  rw [hvr]

/-- C1 witness: the amended theorem at the default configuration with
secret "secret", a GET request to http://example.com/x?a=1 with body,
verified at the instant zero. -/
theorem C1_amended_round_trip_witness :
    signedRoundTrip cfgSecret reqQuery ⟨0, 0⟩ = Except.ok none :=
  C1_amended_round_trip cfgSecret reqQuery ⟨0, 0⟩ (by decide) (by decide) (by decide)
    (by decide) (by decide) (by decide) (by decide) (by decide) (by decide) (by decide)
    (by decide) (by decide) (by decide) (by decide) (by decide) (by decide)

end FiberSigned
